import Mathlib

/-!
# Red-black tree of `src/red_black_tree.cpp`

A shallow embedding of the pointer program.  Node objects live in a heap (a list of
`Node`, the address of a node is its index), a `std::shared_ptr<Node>` is an
`Option Nat` (`none` is the empty pointer), and every member function of `RBTree`
becomes a function on the state `RBTree` (heap, `root_`, and the lines written to
`std::cerr`).  Parent links are stored and read exactly as the source does, so a
parent link that the source leaves stale is stale in the embedding too.

Recursive member functions and the loop of `Successor` take a fuel argument; running
out of fuel is reported as `Fault.outOfFuel`, dereferencing an empty pointer as
`Fault.nullDeref`.  `int` values are only copied and compared, never computed with,
so they are modelled as `Int`.
-/

namespace RBT

/-- The enum `Color` (source lines 5-8). -/
inductive Color where
  | RED
  | BLACK
  deriving DecidableEq

/-- A `std::shared_ptr<Node>`: `none` is the empty pointer, `some a` names the node at
address `a` of the heap. -/
abbrev Ptr := Option Nat

/-- The struct `Node` (source lines 10-19). -/
structure Node where
  value : Int
  color : Color
  parent : Ptr
  left : Ptr
  right : Ptr
  deriving DecidableEq

/-- The two ways a call can fail to return normally. -/
inductive Fault where
  | nullDeref
  | outOfFuel
  deriving DecidableEq

/-- The diagnostic lines the source writes to `std::cerr`. -/
inductive Diag where
  | valueInserted
  | illegalTree
  | illegalLeftRotate
  | illegalRightRotate
  deriving DecidableEq

/-- The state of the program: the heap of node objects, the member `root_` of the class
`RBTree` (source line 48) and the diagnostics written so far. -/
structure RBTree where
  heap : List Node
  root_ : Ptr
  cerr : List Diag
  deriving DecidableEq

/-- The tree made by the constructor `RBTree::RBTree()` (source line 51). -/
def RBTree.empty : RBTree := ⟨[], none, []⟩

/-- Reading through a pointer: `p->...`. -/
def RBTree.node (t : RBTree) : Ptr → Except Fault Node
  | none => .error .nullDeref
  | some a =>
    match t.heap[a]? with
    | some n => .ok n
    | none => .error .nullDeref

/-- Writing through a pointer: `p->field = ...`, with `f` the change of the node. -/
def RBTree.update (t : RBTree) (p : Ptr) (f : Node → Node) : Except Fault RBTree :=
  match p with
  | none => .error .nullDeref
  | some a =>
    match t.heap[a]? with
    | some n => .ok { t with heap := t.heap.set a (f n) }
    | none => .error .nullDeref

/-- The assignment `p->color = c`. -/
def RBTree.setColor (t : RBTree) (p : Ptr) (c : Color) : Except Fault RBTree :=
  t.update p (fun n => { n with color := c })

/-- The test `p && c == p->color`. -/
def RBTree.hasColor (t : RBTree) (p : Ptr) (c : Color) : Except Fault Bool :=
  match p with
  | none => .ok false
  | some _ => (t.node p).map (fun n => decide (n.color = c))

/-- Writing a line to `std::cerr`. -/
def RBTree.report (t : RBTree) (d : Diag) : RBTree :=
  { t with cerr := t.cerr ++ [d] }

/-- The expression `std::make_shared<Node>(value)`: a new RED node without links (source
line 18), placed at the first unused address. -/
def RBTree.alloc (t : RBTree) (value : Int) : RBTree × Ptr :=
  ({ t with heap := t.heap ++ [⟨value, Color.RED, none, none, none⟩] }, some t.heap.length)

/-- `RBTree::LeftRotate` (source lines 356-374). -/
def LeftRotate (t : RBTree) (node : Ptr) : Except Fault RBTree := do
  let n ← t.node node
  let right := n.right
  match right with
  | none => pure (t.report Diag.illegalLeftRotate)
  | some _ =>
    let parent := n.parent
    let t1 ←
      match parent with
      | none => pure t
      | some _ => do
        let p ← t.node parent
        if node = p.left then t.update parent (fun m => { m with left := right })
        else if node = p.right then t.update parent (fun m => { m with right := right })
        else pure t
    let t2 ← t1.update right (fun m => { m with parent := parent })
    let t3 ← t2.update node (fun m => { m with parent := right })
    let r ← t3.node right
    let t4 ← t3.update node (fun m => { m with right := r.left })
    t4.update right (fun m => { m with left := node })

/-- `RBTree::RightRotate` (source lines 376-394). -/
def RightRotate (t : RBTree) (node : Ptr) : Except Fault RBTree := do
  let n ← t.node node
  let left := n.left
  match left with
  | none => pure (t.report Diag.illegalRightRotate)
  | some _ =>
    let parent := n.parent
    let t1 ←
      match parent with
      | none => pure t
      | some _ => do
        let p ← t.node parent
        if node = p.left then t.update parent (fun m => { m with left := left })
        else if node = p.right then t.update parent (fun m => { m with right := left })
        else pure t
    let n1 ← t1.node node
    let t2 ← t1.update left (fun m => { m with parent := n1.parent })
    let t3 ← t2.update node (fun m => { m with parent := left })
    let l ← t3.node left
    let t4 ← t3.update node (fun m => { m with left := l.right })
    t4.update left (fun m => { m with right := node })

/-- The reference parameter `src_node` of `InsertRecurse`: the member `root_`, or the
`left` or `right` field of the node at an address. -/
inductive Slot where
  | root
  | left (a : Nat)
  | right (a : Nat)
  deriving DecidableEq

/-- Reading the pointer a slot holds. -/
def RBTree.readSlot (t : RBTree) : Slot → Except Fault Ptr
  | .root => .ok t.root_
  | .left a => (t.node (some a)).map (fun n => n.left)
  | .right a => (t.node (some a)).map (fun n => n.right)

/-- Assigning a pointer to a slot. -/
def RBTree.writeSlot (t : RBTree) (s : Slot) (p : Ptr) : Except Fault RBTree :=
  match s with
  | .root => .ok { t with root_ := p }
  | .left a => t.update (some a) (fun n => { n with left := p })
  | .right a => t.update (some a) (fun n => { n with right := p })

/-- `RBTree::InsertRecurse` (source lines 145-166). -/
def InsertRecurse : Nat → RBTree → Slot → Ptr → Except Fault RBTree
  | 0, _, _, _ => .error .outOfFuel
  | fuel + 1, t, src, insert_node => do
    let src_node ← t.readSlot src
    match src_node with
    | none => t.writeSlot src insert_node
    | some a =>
      let s ← t.node src_node
      let i ← t.node insert_node
      if s.value = i.value then
        pure (t.report Diag.valueInserted)
      else do
        let t1 ←
          if s.value > i.value then InsertRecurse fuel t (Slot.left a) insert_node
          else InsertRecurse fuel t (Slot.right a) insert_node
        let i1 ← t1.node insert_node
        match i1.parent with
        | some _ => pure t1
        | none => do
          let src_now ← t1.readSlot src
          t1.update insert_node (fun m => { m with parent := src_now })

/-- `RBTree::AdjustTree` (source lines 168-225).  The `do ... while (false)` block yields
the state it leaves and the local `uncle`, which is set only on the two `break` paths. -/
def AdjustTree : Nat → RBTree → Ptr → Except Fault RBTree
  | 0, _, _ => .error .outOfFuel
  | fuel + 1, t, node => do
    let n ← t.node node
    let parent := n.parent
    match parent with
    | none => pure t
    | some _ =>
      let p ← t.node parent
      if p.color = Color.BLACK then pure t
      else do
        let grandparent := p.parent
        let g ← t.node grandparent
        let (t1, uncle) ←
          if parent = g.left then do
            if (← t.hasColor g.right Color.RED) then pure (t, g.right)
            else if node = p.left then do
              let s1 ← t.setColor parent Color.BLACK
              let s2 ← s1.setColor grandparent Color.RED
              let s3 ← RightRotate s2 grandparent
              if s3.root_ = grandparent then pure ({ s3 with root_ := parent }, none)
              else pure (s3, none)
            else do
              let s1 ← LeftRotate t parent
              let s2 ← AdjustTree fuel s1 parent
              pure (s2, none)
          else do
            if (← t.hasColor g.left Color.RED) then pure (t, g.left)
            else if node = p.right then do
              let s1 ← t.setColor parent Color.BLACK
              let s2 ← s1.setColor grandparent Color.RED
              let s3 ← LeftRotate s2 grandparent
              if s3.root_ = grandparent then pure ({ s3 with root_ := parent }, none)
              else pure (s3, none)
            else do
              let s1 ← RightRotate t parent
              let s2 ← AdjustTree fuel s1 parent
              pure (s2, none)
        match uncle with
        | none => pure t1
        | some _ => do
          let t2 ← t1.setColor parent Color.BLACK
          let t3 ← t2.setColor uncle Color.BLACK
          let t4 ← t3.setColor grandparent Color.RED
          AdjustTree fuel t4 grandparent

/-- `RBTree::Insert` (source lines 55-70). -/
def Insert (fuel : Nat) (t : RBTree) (value : Int) : Except Fault RBTree :=
  match t.root_ with
  | none =>
    let (t0, fresh) := t.alloc value
    { t0 with root_ := fresh }.setColor fresh Color.BLACK
  | some _ => do
    let (t0, insert_node) := t.alloc value
    let t1 ← InsertRecurse fuel t0 Slot.root insert_node
    let t2 ← AdjustTree fuel t1 insert_node
    t2.setColor t2.root_ Color.BLACK

/-- `RBTree::DeleteRecurse` (source lines 227-242). -/
def DeleteRecurse : Nat → RBTree → Ptr → Int → Except Fault Ptr
  | _, _, none, _ => .ok none
  | 0, _, some _, _ => .error .outOfFuel
  | fuel + 1, t, some a, value => do
    let n ← t.node (some a)
    if n.value = value then pure (some a)
    else if value < n.value then DeleteRecurse fuel t n.left value
    else DeleteRecurse fuel t n.right value

/-- The loop `while (successor->left) successor = successor->left;` of
`RBTree::Successor` (source lines 429-431). -/
def leftmost : Nat → RBTree → Ptr → Except Fault Ptr
  | 0, _, _ => .error .outOfFuel
  | fuel + 1, t, successor => do
    let s ← t.node successor
    match s.left with
    | none => pure successor
    | some _ => leftmost fuel t s.left

/-- `RBTree::Successor` (source lines 423-434). -/
def Successor (fuel : Nat) (t : RBTree) (node : Ptr) : Except Fault Ptr := do
  let n ← t.node node
  match n.right with
  | none => pure none
  | some _ => leftmost fuel t n.right

/-- `RBTree::FixNode` (source lines 396-421). -/
def FixNode : Nat → RBTree → Ptr → Except Fault Ptr
  | 0, _, _ => .error .outOfFuel
  | fuel + 1, t, del_node => do
    let d ← t.node del_node
    match d.left, d.right with
    | none, none => pure del_node
    | some _, some _ => do
      let successor ← Successor fuel t del_node
      FixNode fuel t successor
    | some _, none => pure d.left
    | none, some _ => pure d.right

/-- The sibling test of `RBTree::DeleteFix` (source lines 273-275 and 323-325):
`(!b->left && !b->right) || (b->left && BLACK == b->left->color && b->right &&
BLACK == b->right->color)`. -/
def RBTree.bothAbsentOrBlack (t : RBTree) (b : Node) : Except Fault Bool :=
  match b.left, b.right with
  | none, none => .ok true
  | some _, some _ => do
    let l ← t.hasColor b.left Color.BLACK
    if l then t.hasColor b.right Color.BLACK else pure false
  | _, _ => .ok false

/-- `RBTree::DeleteFix` (source lines 244-354).  In each mirror half, `(t1, brother)` is
the state and the local `brother` after the red-sibling block, and `step` is the state after
the near-child block: `none` when that block takes its `illegal tree!` return. -/
def DeleteFix : Nat → RBTree → Ptr → Except Fault RBTree
  | 0, _, _ => .error .outOfFuel
  | fuel + 1, t, node => do
    let n ← t.node node
    if t.root_ = node ∨ n.color = Color.RED then t.setColor node Color.BLACK
    else do
      let parent := n.parent
      let p ← t.node parent
      if p.left = node then do
        -- lines 259-269: `brother = parent->right`, red-sibling block
        let b ← t.node p.right
        let (t1, brother) ←
          if b.color = Color.RED then do
            let s1 ← t.setColor p.right Color.BLACK
            let s2 ← s1.setColor parent Color.RED
            let s3 ← LeftRotate s2 parent
            let p1 ← s3.node parent
            pure (s3, p1.right)
          else pure (t, p.right)
        -- lines 273-280: both children of the sibling absent, or both BLACK
        let b1 ← t1.node brother
        if (← t1.bothAbsentOrBlack b1) then do
          let t2 ← t1.setColor brother Color.RED
          DeleteFix fuel t2 parent
        else do
          -- lines 284-296: far child not RED, rotate the near child up
          let far ← t1.hasColor b1.right Color.RED
          let step ←
            if far then pure (some t1)
            else
              match b1.left with
              | none => pure none
              | some _ => do
                let s1 ← t1.setColor b1.left Color.BLACK
                let s2 ← s1.setColor brother Color.RED
                let s3 ← RightRotate s2 brother
                pure (some s3)
          match step with
          | none => pure (t1.report Diag.illegalTree)
          | some t2 => do
            -- lines 299-310
            let b2 ← t2.node brother
            match b2.right with
            | none => pure (t2.report Diag.illegalTree)
            | some _ => do
              let p2 ← t2.node parent
              let t3 ← t2.setColor brother p2.color
              let t4 ← t3.setColor parent Color.BLACK
              let t5 ← t4.setColor b2.right Color.BLACK
              LeftRotate t5 brother
      else do
        -- lines 314-352: the mirror image
        let b ← t.node p.left
        let (t1, brother) ←
          if b.color = Color.RED then do
            let s1 ← t.setColor p.left Color.BLACK
            let s2 ← s1.setColor parent Color.RED
            let s3 ← RightRotate s2 parent
            let p1 ← s3.node parent
            pure (s3, p1.left)
          else pure (t, p.left)
        let b1 ← t1.node brother
        if (← t1.bothAbsentOrBlack b1) then do
          let t2 ← t1.setColor brother Color.RED
          DeleteFix fuel t2 parent
        else do
          let far ← t1.hasColor b1.left Color.RED
          let step ←
            if far then pure (some t1)
            else
              match b1.right with
              | none => pure none
              | some _ => do
                let s1 ← t1.setColor b1.right Color.BLACK
                let s2 ← s1.setColor brother Color.RED
                let s3 ← LeftRotate s2 brother
                pure (some s3)
          match step with
          | none => pure (t1.report Diag.illegalTree)
          | some t2 => do
            let b2 ← t2.node brother
            match b2.left with
            | none => pure (t2.report Diag.illegalTree)
            | some _ => do
              let p2 ← t2.node parent
              let t3 ← t2.setColor brother p2.color
              let t4 ← t3.setColor parent Color.BLACK
              let t5 ← t4.setColor b2.left Color.BLACK
              RightRotate t5 brother

/-- `RBTree::Delete` (source lines 72-102); the Boolean is the value returned. -/
def Delete (fuel : Nat) (t : RBTree) (value : Int) : Except Fault (RBTree × Bool) :=
  match t.root_ with
  | none => .ok (t, false)
  | some _ => do
    let del_node ← DeleteRecurse fuel t t.root_ value
    match del_node with
    | none => pure (t, false)
    | some _ => do
      let fix_node ← FixNode fuel t del_node
      let t1 ←
        if fix_node ≠ del_node then do
          let f ← t.node fix_node
          t.update del_node (fun m => { m with value := f.value })
        else pure t
      let t2 ← DeleteFix fuel t1 fix_node
      if fix_node = t2.root_ then pure ({ t2 with root_ := none }, true)
      else do
        let f ← t2.node fix_node
        let parent := f.parent
        let p ← t2.node parent
        if p.left = fix_node then do
          let t3 ← t2.update parent (fun m => { m with left := none })
          pure (t3, true)
        else do
          let t3 ← t2.update parent (fun m => { m with right := none })
          pure (t3, true)

/-- In-order walk through the child links from `p`: the addresses and nodes met, left
subtree first.  `none` when the links do not end within `fuel` levels or name an address
outside the heap. -/
def walk : Nat → List Node → Ptr → Option (List (Nat × Node))
  | _, _, none => some []
  | 0, _, some _ => none
  | fuel + 1, h, some a =>
    match h[a]? with
    | none => none
    | some n =>
      match walk fuel h n.left, walk fuel h n.right with
      | some l, some r => some (l ++ (a, n) :: r)
      | _, _ => none

/-- In-order traversal of the values stored below `p`. -/
def inorder (fuel : Nat) (h : List Node) (p : Ptr) : Option (List Int) :=
  (walk fuel h p).map (fun w => w.map (fun e => e.2.value))

/-- In-order traversal of the tree, read from `root_` through the child links. -/
def RBTree.inorder (fuel : Nat) (t : RBTree) : Option (List Int) :=
  RBT.inorder fuel t.heap t.root_

/-- An absent child counts as BLACK. -/
def isRedPtr (h : List Node) : Ptr → Bool
  | none => false
  | some a =>
    match h[a]? with
    | some n => decide (n.color = Color.RED)
    | none => false

/-- Invariant 2: the root, if present, is BLACK. -/
def RBTree.rootBlack (t : RBTree) : Bool :=
  !isRedPtr t.heap t.root_

/-- Invariant 3 below `p`: no RED node has a RED child. -/
def noRedRed : Nat → List Node → Ptr → Bool
  | _, _, none => true
  | 0, _, some _ => false
  | fuel + 1, h, some a =>
    match h[a]? with
    | none => false
    | some n =>
      (!(decide (n.color = Color.RED) && (isRedPtr h n.left || isRedPtr h n.right)))
        && noRedRed fuel h n.left && noRedRed fuel h n.right

/-- Invariant 4 below `p`: the number of BLACK nodes on every path from `p` down to a
missing-child position, when it is the same on all of them. -/
def blackHeight : Nat → List Node → Ptr → Option Nat
  | _, _, none => some 0
  | 0, _, some _ => none
  | fuel + 1, h, some a =>
    match h[a]? with
    | none => none
    | some n =>
      match blackHeight fuel h n.left, blackHeight fuel h n.right with
      | some l, some r =>
        if l = r then some (if n.color = Color.BLACK then l + 1 else l) else none
      | _, _ => none

/-- The three colour invariants of the tree read from `root_`. -/
def RBTree.colourOK (fuel : Nat) (t : RBTree) : Bool :=
  t.rootBlack && noRedRed fuel t.heap t.root_ && (blackHeight fuel t.heap t.root_).isSome

/-- Strictly increasing list of integers. -/
def increasing : List Int → Bool
  | [] => true
  | [_] => true
  | a :: b :: rest => decide (a < b) && increasing (b :: rest)

/-- Calling `Insert` on each value of a list in turn. -/
def insertAll (fuel : Nat) : RBTree → List Int → Except Fault RBTree
  | t, [] => .ok t
  | t, v :: vs => do
    let t1 ← Insert fuel t v
    insertAll fuel t1 vs

/-- Calling `Delete` on each value of a list in turn, collecting the values returned. -/
def deleteAll (fuel : Nat) : RBTree → List Int → Except Fault (RBTree × List Bool)
  | t, [] => .ok (t, [])
  | t, v :: vs => do
    let (t1, b) ← Delete fuel t v
    let (t2, bs) ← deleteAll fuel t1 vs
    pure (t2, b :: bs)

/-- The nodes reachable from `root_`, in in-order: address, value, colour, left and right
child of each. -/
def RBTree.nodes (fuel : Nat) (t : RBTree) : Option (List (Nat × Int × Color × Ptr × Ptr)) :=
  (walk fuel t.heap t.root_).map
    (fun w => w.map (fun e => (e.1, e.2.value, e.2.color, e.2.left, e.2.right)))

/-- The tree the driver `main` (source lines 436-441) has built after its eight `Insert`
calls; see `mainTree_built`. -/
def mainTree : RBTree :=
  { heap := [
      { value := 10, color := Color.BLACK, parent := none, left := some 4, right := some 2 },
      { value := 5, color := Color.BLACK, parent := some 4, left := none, right := some 5 },
      { value := 20, color := Color.BLACK, parent := some 0, left := some 6, right := some 7 },
      { value := 1, color := Color.BLACK, parent := some 4, left := none, right := none },
      { value := 2, color := Color.RED, parent := some 0, left := some 3, right := some 1 },
      { value := 7, color := Color.RED, parent := some 1, left := none, right := none },
      { value := 15, color := Color.RED, parent := some 2, left := none, right := none },
      { value := 30, color := Color.RED, parent := some 2, left := none, right := none }],
    root_ := some 0,
    cerr := [] }

/-- Parent-link consistency below `p`: every node met through the child links has as
parent link the node whose field holds it; `par` is what the link of `p` itself must be. -/
def parentsOK : Nat → List Node → Ptr → Ptr → Bool
  | _, _, _, none => true
  | 0, _, _, some _ => false
  | fuel + 1, h, par, some a =>
    match h[a]? with
    | none => false
    | some n =>
      decide (n.parent = par) && parentsOK fuel h (some a) n.left
        && parentsOK fuel h (some a) n.right

/-- A call of one of the two public member functions. -/
inductive Call where
  | insert (value : Int)
  | delete (value : Int)
  deriving DecidableEq

/-- Running a sequence of public calls in turn; the values returned by `Delete` are
dropped. -/
def runCalls (fuel : Nat) : RBTree → List Call → Except Fault RBTree
  | t, [] => .ok t
  | t, Call.insert v :: cs => do
    let t1 ← Insert fuel t v
    runCalls fuel t1 cs
  | t, Call.delete v :: cs => do
    let (t1, _) ← Delete fuel t v
    runCalls fuel t1 cs

/-- A pointer is empty or names a node of the heap. -/
def validPtr (h : List Node) : Ptr → Bool
  | none => true
  | some a => decide (a < h.length)

/-- Every pointer stored in a node names a node of the heap (a `shared_ptr` never
dangles). -/
def closed (h : List Node) : Bool :=
  h.all (fun n => validPtr h n.parent && validPtr h n.left && validPtr h n.right)

/-- The list `c` starts at a node and follows the stored parent links up to a node without
parent link; each node of the list is held in a child field by the next one, and the
last one, unless it is the first, is BLACK. -/
def goodChain (h : List Node) : List Nat → Prop
  | [] => False
  | [a] => ∃ n, h[a]? = some n ∧ n.parent = none
  | a :: b :: rest =>
    (∃ n, h[a]? = some n ∧ n.parent = some b) ∧
    (∃ m, h[b]? = some m ∧ (m.left = some a ∨ m.right = some a) ∧
      (rest = [] → m.color = Color.BLACK)) ∧
    goodChain h (b :: rest)

/-- The member `root_` names a node of the heap. -/
def RBTree.rootPresent (t : RBTree) : Prop :=
  ∃ r n, t.root_ = some r ∧ t.heap[r]? = some n

/-! ## Basic facts about the heap and the in-order walk -/

/-- The literal `mainTree` is the state the eight `Insert` calls of the driver produce. -/
theorem mainTree_built :
    insertAll 16 RBTree.empty [10, 5, 20, 1, 2, 7, 15, 30] = .ok mainTree := by
  rfl

/-- Below the empty pointer there is nothing to walk. -/
theorem walk_none (fuel : Nat) (h : List Node) : walk fuel h none = some [] := by
  cases fuel <;> rfl

/-- A walk from a node that ended splits into the walks of its two subtrees. -/
theorem walk_succ_some {fuel : Nat} {h : List Node} {a : Nat} {w : List (Nat × Node)}
    (hw : walk (fuel + 1) h (some a) = some w) :
    ∃ n l r, h[a]? = some n ∧ walk fuel h n.left = some l ∧ walk fuel h n.right = some r ∧
      w = l ++ (a, n) :: r := by
  simp only [walk] at hw
  split at hw
  · simp at hw
  · rename_i n hn
    split at hw
    · rename_i l r hl hr
      exact ⟨n, l, r, hn, hl, hr, by simpa using hw.symm⟩
    · simp at hw

/-- The walks of the two subtrees of a node give the walk from the node. -/
theorem walk_succ_of {fuel : Nat} {h : List Node} {a : Nat} {n : Node}
    {l r : List (Nat × Node)} (hn : h[a]? = some n) (hl : walk fuel h n.left = some l)
    (hr : walk fuel h n.right = some r) :
    walk (fuel + 1) h (some a) = some (l ++ (a, n) :: r) := by
  simp [walk, hn, hl, hr]

/-- More fuel does not change a walk that ended. -/
theorem walk_mono (h : List Node) :
    ∀ (fuel : Nat) (p : Ptr) (w : List (Nat × Node)), walk fuel h p = some w →
      walk (fuel + 1) h p = some w := by
  intro fuel
  induction fuel with
  | zero =>
    intro p w hw
    cases p with
    | none => simpa [walk_none] using hw
    | some a => simp [walk] at hw
  | succ fuel ih =>
    intro p w hw
    cases p with
    | none => simpa [walk_none] using hw
    | some a =>
      obtain ⟨n, l, r, hn, hl, hr, rfl⟩ := walk_succ_some hw
      exact walk_succ_of hn (ih _ _ hl) (ih _ _ hr)

/-- The pointer a walk starts from is among its addresses. -/
theorem walk_start (h : List Node) (fuel : Nat) (a : Nat) (w : List (Nat × Node))
    (hw : walk fuel h (some a) = some w) : a ∈ w.map Prod.fst := by
  cases fuel with
  | zero => simp [walk] at hw
  | succ fuel =>
    obtain ⟨n, l, r, _, _, _, rfl⟩ := walk_succ_some hw
    simp

/-- The addresses of a walk are closed under the child links. -/
theorem walk_child (h : List Node) :
    ∀ (fuel : Nat) (p : Ptr) (w : List (Nat × Node)), walk fuel h p = some w →
      ∀ a k c, h[a]? = some k → a ∈ w.map Prod.fst → (k.left = some c ∨ k.right = some c) →
        c ∈ w.map Prod.fst := by
  intro fuel
  induction fuel with
  | zero =>
    intro p w hw a k c _ ha _
    cases p with
    | none => simp [walk_none] at hw; subst hw; simp at ha
    | some b => simp [walk] at hw
  | succ fuel ih =>
    intro p w hw a k c hk ha hc
    cases p with
    | none => simp [walk_none] at hw; subst hw; simp at ha
    | some b =>
      obtain ⟨n, l, r, hn, hl, hr, rfl⟩ := walk_succ_some hw
      simp only [List.map_append, List.map_cons, List.mem_append, List.mem_cons] at ha ⊢
      rcases ha with ha | rfl | ha
      · exact Or.inl (ih _ _ hl a k c hk ha hc)
      · rw [hn] at hk
        cases hk
        rcases hc with hc | hc
        · rw [hc] at hl
          exact Or.inl (walk_start h fuel c l hl)
        · rw [hc] at hr
          exact Or.inr (Or.inr (walk_start h fuel c r hr))
      · exact Or.inr (Or.inr (ih _ _ hr a k c hk ha hc))

/-- A walk only reads the nodes it lists: a heap that agrees on them gives the same walk. -/
theorem walk_frame (h h' : List Node) :
    ∀ (fuel : Nat) (p : Ptr) (w : List (Nat × Node)), walk fuel h p = some w →
      (∀ a ∈ w.map Prod.fst, h'[a]? = h[a]?) → walk fuel h' p = some w := by
  intro fuel
  induction fuel with
  | zero =>
    intro p w hw _
    cases p with
    | none => simpa [walk_none] using hw
    | some b => simp [walk] at hw
  | succ fuel ih =>
    intro p w hw hsame
    cases p with
    | none => simpa [walk_none] using hw
    | some b =>
      obtain ⟨n, l, r, hn, hl, hr, rfl⟩ := walk_succ_some hw
      have hb : h'[b]? = some n := by
        rw [hsame b (by simp)]; exact hn
      refine walk_succ_of hb (ih _ _ hl ?_) (ih _ _ hr ?_)
      · intro a ha
        refine hsame a ?_
        simp only [List.map_append, List.map_cons, List.mem_append, List.mem_cons]
        exact Or.inl ha
      · intro a ha
        refine hsame a ?_
        simp only [List.map_append, List.map_cons, List.mem_append, List.mem_cons]
        exact Or.inr (Or.inr ha)

/-- The in-order values are the values of the nodes of the walk. -/
theorem inorder_of_walk {fuel : Nat} {h : List Node} {p : Ptr} {w : List (Nat × Node)}
    (hw : walk fuel h p = some w) : inorder fuel h p = some (w.map (fun e => e.2.value)) := by
  simp [inorder, hw]

/-! ## Searching for a value that is not stored -/

/-- The search for a value that no node of the subtree stores ends with the empty
pointer. -/
theorem DeleteRecurse_absent (t : RBTree) (x : Int) :
    ∀ (fuel : Nat) (p : Ptr) (w : List (Nat × Node)), walk fuel t.heap p = some w →
      x ∉ w.map (fun e => e.2.value) → DeleteRecurse fuel t p x = .ok none := by
  intro fuel
  induction fuel with
  | zero =>
    intro p w hw _
    cases p with
    | none => rfl
    | some a => simp [walk] at hw
  | succ fuel ih =>
    intro p w hw hx
    cases p with
    | none => rfl
    | some a =>
      obtain ⟨n, l, r, hn, hl, hr, rfl⟩ := walk_succ_some hw
      simp only [List.map_append, List.map_cons, List.mem_append, List.mem_cons, not_or] at hx
      obtain ⟨hxl, hxn, hxr⟩ := hx
      have h1 : DeleteRecurse fuel t n.left x = .ok none := ih n.left l hl hxl
      have h2 : DeleteRecurse fuel t n.right x = .ok none := ih n.right r hr hxr
      have hne : ¬ n.value = x := fun e => hxn e.symm
      simp [DeleteRecurse, RBTree.node, hn, hne, h1, h2, bind, Except.bind, pure, Except.pure]

/-! ## The rotations on a node of a tree -/

/-- The heap `LeftRotate` leaves when `x`, its right child `y` and the node its parent link
names are three different nodes. -/
theorem LeftRotate_eval {t : RBTree} {x y : Nat} {n m : Node}
    (hx : t.heap[x]? = some n) (hy : t.heap[y]? = some m) (hxy : x ≠ y)
    (hr : n.right = some y)
    (hpar : ∀ p, n.parent = some p → p ≠ x ∧ p ≠ y ∧
      ∃ np, t.heap[p]? = some np ∧ (np.left = some x ∨ np.right = some x)) :
    ∃ t', LeftRotate t (some x) = .ok t' ∧ t'.root_ = t.root_ ∧ t'.cerr = t.cerr ∧
      t'.heap[y]? = some { m with parent := n.parent, left := some x } ∧
      t'.heap[x]? = some { n with parent := some y, right := m.left } ∧
      (∀ p np, n.parent = some p → t.heap[p]? = some np →
        t'.heap[p]? = some (if np.left = some x then { np with left := some y }
          else { np with right := some y })) ∧
      ∀ a, a ≠ x → a ≠ y → n.parent ≠ some a → t'.heap[a]? = t.heap[a]? := by
  have hyx : y ≠ x := fun e => hxy e.symm
  obtain ⟨hxl, hxe⟩ := List.getElem?_eq_some.mp hx
  obtain ⟨hyl, hye⟩ := List.getElem?_eq_some.mp hy
  cases hp : n.parent with
  | none =>
    refine ⟨⟨(((t.heap.set y { m with parent := none }).set x { n with parent := some y }).set x
      { n with parent := some y, right := m.left }).set y
      { m with parent := none, left := some x }, t.root_, t.cerr⟩, ?_, rfl, rfl, ?_, ?_, ?_, ?_⟩
    · simp [LeftRotate, RBTree.node, RBTree.update, hx, hy, hr, hp, List.getElem?_set, hxy, hyx,
        hxl, hyl, hxe, hye, bind, Except.bind, pure, Except.pure]
    · simp [List.getElem?_set, hxy, hyx, hxl, hyl]
    · simp [List.getElem?_set, hxy, hyx, hxl, hyl]
    · intro p np h
      cases h
    · intro a hax hay _
      simp [List.getElem?_set, hxy, hyx, hxl, hyl, Ne.symm hax, Ne.symm hay]
  | some p =>
    obtain ⟨hpx, hpy, np, hnp, hslot⟩ := hpar p hp
    obtain ⟨hpl, hpe⟩ := List.getElem?_eq_some.mp hnp
    by_cases hl : np.left = some x
    · refine ⟨⟨((((t.heap.set p { np with left := some y }).set y { m with parent := some p }).set x
        { n with parent := some y }).set x
        { n with parent := some y, right := m.left }).set y
        { m with parent := some p, left := some x }, t.root_, t.cerr⟩, ?_, rfl, rfl, ?_, ?_, ?_, ?_⟩
      · simp [LeftRotate, RBTree.node, RBTree.update, hx, hy, hr, hp, hnp, hl, List.getElem?_set, hxy, hyx,
          hxl, hyl, hpl, hxe, hye, hpe, hpx, hpy, Ne.symm hpx, Ne.symm hpy, bind, Except.bind, pure, Except.pure]
      · simp [List.getElem?_set, hxy, hyx, hxl, hyl]
      · simp [List.getElem?_set, hxy, hyx, hxl, hyl]
      · intro p' np' h hnp'
        cases h
        rw [hnp] at hnp'
        cases hnp'
        simp [List.getElem?_set, hxy, hyx, hxl, hyl, hpl, hpx, hpy, Ne.symm hpx, Ne.symm hpy, hl]
      · intro a hax hay hap
        have hap' : p ≠ a := fun e => hap (by rw [e])
        simp [List.getElem?_set, hxy, hyx, hxl, hyl, Ne.symm hax, Ne.symm hay, hap']
    · have hrx : np.right = some x := by
        rcases hslot with h | h
        · exact absurd h hl
        · exact h
      have hl' : ¬ some x = np.left := fun e => hl e.symm
      refine ⟨⟨((((t.heap.set p { np with right := some y }).set y { m with parent := some p }).set x
        { n with parent := some y }).set x
        { n with parent := some y, right := m.left }).set y
        { m with parent := some p, left := some x }, t.root_, t.cerr⟩, ?_, rfl, rfl, ?_, ?_, ?_, ?_⟩
      · simp [LeftRotate, RBTree.node, RBTree.update, hx, hy, hr, hp, hnp, hl', hrx, List.getElem?_set,
          hxy, hyx, hxl, hyl, hpl, hxe, hye, hpe, hpx, hpy, Ne.symm hpx, Ne.symm hpy, bind,
          Except.bind, pure, Except.pure]
      · simp [List.getElem?_set, hxy, hyx, hxl, hyl]
      · simp [List.getElem?_set, hxy, hyx, hxl, hyl]
      · intro p' np' h hnp'
        cases h
        rw [hnp] at hnp'
        cases hnp'
        simp [List.getElem?_set, hxy, hyx, hxl, hyl, hpl, hpx, hpy, Ne.symm hpx, Ne.symm hpy, hl]
      · intro a hax hay hap
        have hap' : p ≠ a := fun e => hap (by rw [e])
        simp [List.getElem?_set, hxy, hyx, hxl, hyl, Ne.symm hax, Ne.symm hay, hap']

/-- The parent named by a consistent parent link lies outside the subtree. -/
theorem parent_outside {h : List Node} {fuel : Nat} {x : Nat} {n : Node}
    {w : List (Nat × Node)} (hx : h[x]? = some n)
    (hwalk : walk fuel h (some x) = some w) (hnodup : (w.map Prod.fst).Nodup)
    {p : Nat} {np : Node} (hnp : h[p]? = some np)
    (hslot : np.left = some x ∨ np.right = some x) : p ∉ w.map Prod.fst := by
  intro hmem
  cases fuel with
  | zero => simp [walk] at hwalk
  | succ f =>
    obtain ⟨n', l, r, hn', hl, hr, rfl⟩ := walk_succ_some hwalk
    rw [hx] at hn'
    cases hn'
    simp only [List.map_append, List.map_cons] at hnodup hmem
    have hmid := List.nodup_middle.mp hnodup
    have hxnot : x ∉ l.map Prod.fst ++ r.map Prod.fst := (List.nodup_cons.mp hmid).1
    simp only [List.mem_append, not_or] at hxnot
    simp only [List.mem_append, List.mem_cons] at hmem
    rcases hmem with hm | rfl | hm
    · exact hxnot.1 (walk_child h f n.left l hl p np x hnp hm hslot)
    · rw [hx] at hnp
      cases hnp
      rcases hslot with hs | hs
      · rw [hs] at hl
        exact hxnot.1 (walk_start h f p l hl)
      · rw [hs] at hr
        exact hxnot.2 (walk_start h f p r hr)
    · exact hxnot.2 (walk_child h f n.right r hr p np x hnp hm hslot)

/-- `LeftRotate` on a node `x` of a tree whose right child is `y`. -/
theorem LeftRotate_spec {fuel : Nat} {t : RBTree} {x y : Nat} {n m : Node}
    {w : List (Nat × Node)}
    (hx : t.heap[x]? = some n) (hy : t.heap[y]? = some m)
    (hwalk : walk fuel t.heap (some x) = some w) (hnodup : (w.map Prod.fst).Nodup)
    (hpar : ∀ p, n.parent = some p →
      ∃ np, t.heap[p]? = some np ∧ (np.left = some x ∨ np.right = some x))
    (hr : n.right = some y) :
    ∃ t', LeftRotate t (some x) = .ok t' ∧ t'.root_ = t.root_ ∧ t'.cerr = t.cerr ∧
      t'.heap[y]? = some { m with parent := n.parent, left := some x } ∧
      t'.heap[x]? = some { n with parent := some y, right := m.left } ∧
      (∀ p np, n.parent = some p → t.heap[p]? = some np →
        t'.heap[p]? = some (if np.left = some x then { np with left := some y }
          else { np with right := some y })) ∧
      (∀ a, a ≠ x → a ≠ y → n.parent ≠ some a → t'.heap[a]? = t.heap[a]?) ∧
      (∀ a : Nat, (t'.heap[a]?).map (fun k : Node => (k.value, k.color)) =
        (t.heap[a]?).map (fun k : Node => (k.value, k.color))) ∧
      inorder (fuel + 1) t'.heap (some y) = inorder fuel t.heap (some x) := by
  -- shape of the subtree before the call
  cases fuel with
  | zero => simp [walk] at hwalk
  | succ f =>
  obtain ⟨n', wa, wr, hn', hwa, hwr, hw⟩ := walk_succ_some hwalk
  rw [hx] at hn'
  cases hn'
  rw [hr] at hwr
  cases f with
  | zero => simp [walk] at hwr
  | succ f =>
  obtain ⟨m', wb, wc, hm', hwb, hwc, hwr'⟩ := walk_succ_some hwr
  rw [hy] at hm'
  cases hm'
  subst hwr'
  -- the addresses are pairwise different
  have hnd := hnodup
  rw [hw] at hnd
  simp only [List.map_append, List.map_cons] at hnd
  have hmid := List.nodup_middle.mp hnd
  obtain ⟨hxnot, hrest⟩ := List.nodup_cons.mp hmid
  simp only [List.mem_append, List.mem_cons, not_or] at hxnot
  obtain ⟨hxa, hxb, hxy, hxc⟩ := hxnot
  obtain ⟨_, hbc, hdisj⟩ := List.nodup_append.mp hrest
  have hmid2 := List.nodup_middle.mp hbc
  obtain ⟨hynot, _⟩ := List.nodup_cons.mp hmid2
  simp only [List.mem_append, not_or] at hynot
  obtain ⟨hyb, hyc⟩ := hynot
  have hymem : y ∈ List.map Prod.fst wb ++ y :: List.map Prod.fst wc := by simp
  have hya : y ∉ wa.map Prod.fst := fun hmem => hdisj hmem hymem
  -- the parent lies outside the subtree
  have hout : ∀ p, n.parent = some p → p ∉ w.map Prod.fst := by
    intro p hp
    obtain ⟨np, hnp, hslot⟩ := hpar p hp
    exact parent_outside hx hwalk hnodup hnp hslot
  have hpar' : ∀ p, n.parent = some p → p ≠ x ∧ p ≠ y ∧
      ∃ np, t.heap[p]? = some np ∧ (np.left = some x ∨ np.right = some x) := by
    intro p hp
    have ho := hout p hp
    rw [hw] at ho
    simp only [List.map_append, List.map_cons, List.mem_append, List.mem_cons, not_or] at ho
    exact ⟨ho.2.1, ho.2.2.2.1, hpar p hp⟩
  obtain ⟨t', hrun, hroot, hcerr, hy', hx', hp', hother⟩ :=
    LeftRotate_eval hx hy hxy hr hpar'
  -- the three subtrees are read unchanged
  have hsame : ∀ a, a ∈ w.map Prod.fst → a ≠ x → a ≠ y → t'.heap[a]? = t.heap[a]? := by
    intro a ha hax hay
    exact hother a hax hay (fun hp => hout a hp ha)
  have hfa : walk (f + 1) t'.heap n.left = some wa := by
    refine walk_frame t.heap t'.heap (f + 1) n.left wa hwa ?_
    intro a ha
    refine hsame a ?_ (fun e => hxa (e ▸ ha)) (fun e => hya (e ▸ ha))
    rw [hw]
    simp only [List.map_append, List.map_cons, List.mem_append, List.mem_cons]
    exact Or.inl ha
  have hfb : walk (f + 1) t'.heap m.left = some wb := by
    refine walk_frame t.heap t'.heap (f + 1) m.left wb (walk_mono _ _ _ _ hwb) ?_
    intro a ha
    refine hsame a ?_ (fun e => hxb (e ▸ ha)) (fun e => hyb (e ▸ ha))
    rw [hw]
    simp only [List.map_append, List.map_cons, List.mem_append, List.mem_cons]
    exact Or.inr (Or.inr (Or.inl ha))
  have hfc : walk (f + 2) t'.heap m.right = some wc := by
    refine walk_frame t.heap t'.heap (f + 2) m.right wc
      (walk_mono _ _ _ _ (walk_mono _ _ _ _ hwc)) ?_
    intro a ha
    refine hsame a ?_ (fun e => hxc (e ▸ ha)) (fun e => hyc (e ▸ ha))
    rw [hw]
    simp only [List.map_append, List.map_cons, List.mem_append, List.mem_cons]
    exact Or.inr (Or.inr (Or.inr (Or.inr ha)))
  have hwx : walk (f + 2) t'.heap (some x) =
      some (wa ++ (x, { n with parent := some y, right := m.left }) :: wb) :=
    walk_succ_of hx' hfa hfb
  have hwy : walk (f + 3) t'.heap (some y) =
      some ((wa ++ (x, { n with parent := some y, right := m.left }) :: wb) ++
        (y, { m with parent := n.parent, left := some x }) :: wc) :=
    walk_succ_of hy' hwx hfc
  refine ⟨t', hrun, hroot, hcerr, hy', hx', hp', hother, ?_, ?_⟩
  · intro a
    by_cases hay : a = y
    · subst hay
      simp [hy', hy]
    · by_cases hax : a = x
      · subst hax
        simp [hx', hx]
      · by_cases hap : n.parent = some a
        · obtain ⟨np, hnp, _⟩ := hpar a hap
          rw [hp' a np hap hnp, hnp]
          by_cases hl : np.left = some x <;> simp [hl]
        · rw [hother a hax hay hap]
  · rw [inorder_of_walk hwy, inorder_of_walk hwalk, hw]
    simp

/-- The heap `RightRotate` leaves when `x`, its left child `y` and the node its parent link
names are three different nodes. -/
theorem RightRotate_eval {t : RBTree} {x y : Nat} {n m : Node}
    (hx : t.heap[x]? = some n) (hy : t.heap[y]? = some m) (hxy : x ≠ y)
    (hr : n.left = some y)
    (hpar : ∀ p, n.parent = some p → p ≠ x ∧ p ≠ y ∧
      ∃ np, t.heap[p]? = some np ∧ (np.left = some x ∨ np.right = some x)) :
    ∃ t', RightRotate t (some x) = .ok t' ∧ t'.root_ = t.root_ ∧ t'.cerr = t.cerr ∧
      t'.heap[y]? = some { m with parent := n.parent, right := some x } ∧
      t'.heap[x]? = some { n with parent := some y, left := m.right } ∧
      (∀ p np, n.parent = some p → t.heap[p]? = some np →
        t'.heap[p]? = some (if np.left = some x then { np with left := some y }
          else { np with right := some y })) ∧
      ∀ a, a ≠ x → a ≠ y → n.parent ≠ some a → t'.heap[a]? = t.heap[a]? := by
  have hyx : y ≠ x := fun e => hxy e.symm
  obtain ⟨hxl, hxe⟩ := List.getElem?_eq_some.mp hx
  obtain ⟨hyl, hye⟩ := List.getElem?_eq_some.mp hy
  cases hp : n.parent with
  | none =>
    refine ⟨⟨(((t.heap.set y { m with parent := none }).set x { n with parent := some y }).set x
      { n with parent := some y, left := m.right }).set y
      { m with parent := none, right := some x }, t.root_, t.cerr⟩, ?_, rfl, rfl, ?_, ?_, ?_, ?_⟩
    · simp [RightRotate, RBTree.node, RBTree.update, hx, hy, hr, hp, List.getElem?_set, hxy, hyx,
        hxl, hyl, hxe, hye, bind, Except.bind, pure, Except.pure]
    · simp [List.getElem?_set, hxy, hyx, hxl, hyl]
    · simp [List.getElem?_set, hxy, hyx, hxl, hyl]
    · intro p np h
      cases h
    · intro a hax hay _
      simp [List.getElem?_set, hxy, hyx, hxl, hyl, Ne.symm hax, Ne.symm hay]
  | some p =>
    obtain ⟨hpx, hpy, np, hnp, hslot⟩ := hpar p hp
    obtain ⟨hpl, hpe⟩ := List.getElem?_eq_some.mp hnp
    by_cases hl : np.left = some x
    · refine ⟨⟨((((t.heap.set p { np with left := some y }).set y { m with parent := some p }).set x
        { n with parent := some y }).set x
        { n with parent := some y, left := m.right }).set y
        { m with parent := some p, right := some x }, t.root_, t.cerr⟩, ?_, rfl, rfl, ?_, ?_, ?_, ?_⟩
      · simp [RightRotate, RBTree.node, RBTree.update, hx, hy, hr, hp, hnp, hl, List.getElem?_set,
          hxy, hyx, hxl, hyl, hpl, hxe, hye, hpe, hpx, hpy, Ne.symm hpx, Ne.symm hpy, bind,
          Except.bind, pure, Except.pure]
      · simp [List.getElem?_set, hxy, hyx, hxl, hyl]
      · simp [List.getElem?_set, hxy, hyx, hxl, hyl]
      · intro p' np' h hnp'
        cases h
        rw [hnp] at hnp'
        cases hnp'
        simp [List.getElem?_set, hxy, hyx, hxl, hyl, hpl, hpx, hpy, Ne.symm hpx, Ne.symm hpy, hl]
      · intro a hax hay hap
        have hap' : p ≠ a := fun e => hap (by rw [e])
        simp [List.getElem?_set, hxy, hyx, hxl, hyl, Ne.symm hax, Ne.symm hay, hap']
    · have hrx : np.right = some x := by
        rcases hslot with h | h
        · exact absurd h hl
        · exact h
      have hl' : ¬ some x = np.left := fun e => hl e.symm
      refine ⟨⟨((((t.heap.set p { np with right := some y }).set y { m with parent := some p }).set x
        { n with parent := some y }).set x
        { n with parent := some y, left := m.right }).set y
        { m with parent := some p, right := some x }, t.root_, t.cerr⟩, ?_, rfl, rfl, ?_, ?_, ?_, ?_⟩
      · simp [RightRotate, RBTree.node, RBTree.update, hx, hy, hr, hp, hnp, hl', hrx,
          List.getElem?_set, hxy, hyx, hxl, hyl, hpl, hxe, hye, hpe, hpx, hpy, Ne.symm hpx,
          Ne.symm hpy, bind, Except.bind, pure, Except.pure]
      · simp [List.getElem?_set, hxy, hyx, hxl, hyl]
      · simp [List.getElem?_set, hxy, hyx, hxl, hyl]
      · intro p' np' h hnp'
        cases h
        rw [hnp] at hnp'
        cases hnp'
        simp [List.getElem?_set, hxy, hyx, hxl, hyl, hpl, hpx, hpy, Ne.symm hpx, Ne.symm hpy, hl]
      · intro a hax hay hap
        have hap' : p ≠ a := fun e => hap (by rw [e])
        simp [List.getElem?_set, hxy, hyx, hxl, hyl, Ne.symm hax, Ne.symm hay, hap']

/-- `RightRotate` on a node `x` of a tree whose left child is `y`. -/
theorem RightRotate_spec {fuel : Nat} {t : RBTree} {x y : Nat} {n m : Node}
    {w : List (Nat × Node)}
    (hx : t.heap[x]? = some n) (hy : t.heap[y]? = some m)
    (hwalk : walk fuel t.heap (some x) = some w) (hnodup : (w.map Prod.fst).Nodup)
    (hpar : ∀ p, n.parent = some p →
      ∃ np, t.heap[p]? = some np ∧ (np.left = some x ∨ np.right = some x))
    (hr : n.left = some y) :
    ∃ t', RightRotate t (some x) = .ok t' ∧ t'.root_ = t.root_ ∧ t'.cerr = t.cerr ∧
      t'.heap[y]? = some { m with parent := n.parent, right := some x } ∧
      t'.heap[x]? = some { n with parent := some y, left := m.right } ∧
      (∀ p np, n.parent = some p → t.heap[p]? = some np →
        t'.heap[p]? = some (if np.left = some x then { np with left := some y }
          else { np with right := some y })) ∧
      (∀ a, a ≠ x → a ≠ y → n.parent ≠ some a → t'.heap[a]? = t.heap[a]?) ∧
      (∀ a : Nat, (t'.heap[a]?).map (fun k : Node => (k.value, k.color)) =
        (t.heap[a]?).map (fun k : Node => (k.value, k.color))) ∧
      inorder (fuel + 1) t'.heap (some y) = inorder fuel t.heap (some x) := by
  cases fuel with
  | zero => simp [walk] at hwalk
  | succ f =>
  obtain ⟨n', wl, wc, hn', hwl, hwc, hw⟩ := walk_succ_some hwalk
  rw [hx] at hn'
  cases hn'
  rw [hr] at hwl
  cases f with
  | zero => simp [walk] at hwl
  | succ f =>
  obtain ⟨m', wa, wb, hm', hwa, hwb, hwl'⟩ := walk_succ_some hwl
  rw [hy] at hm'
  cases hm'
  subst hwl'
  have hnd := hnodup
  rw [hw] at hnd
  simp only [List.map_append, List.map_cons] at hnd
  have hmid := List.nodup_middle.mp hnd
  obtain ⟨hxnot, hrest⟩ := List.nodup_cons.mp hmid
  simp only [List.mem_append, List.mem_cons, not_or] at hxnot
  obtain ⟨⟨hxa, hyx, hxb⟩, hxc⟩ := hxnot
  have hxy : x ≠ y := hyx
  obtain ⟨hab, _, hdisj⟩ := List.nodup_append.mp hrest
  have hmid2 := List.nodup_middle.mp hab
  obtain ⟨hynot, _⟩ := List.nodup_cons.mp hmid2
  simp only [List.mem_append, not_or] at hynot
  obtain ⟨hya, hyb⟩ := hynot
  have hymem : y ∈ List.map Prod.fst wa ++ y :: List.map Prod.fst wb := by simp
  have hyc : y ∉ wc.map Prod.fst := fun hmem => hdisj hymem hmem
  have hout : ∀ p, n.parent = some p → p ∉ w.map Prod.fst := by
    intro p hp
    obtain ⟨np, hnp, hslot⟩ := hpar p hp
    exact parent_outside hx hwalk hnodup hnp hslot
  have hpar' : ∀ p, n.parent = some p → p ≠ x ∧ p ≠ y ∧
      ∃ np, t.heap[p]? = some np ∧ (np.left = some x ∨ np.right = some x) := by
    intro p hp
    have ho := hout p hp
    rw [hw] at ho
    simp only [List.map_append, List.map_cons, List.mem_append, List.mem_cons, not_or] at ho
    exact ⟨ho.2.1, ho.1.2.1, hpar p hp⟩
  obtain ⟨t', hrun, hroot, hcerr, hy', hx', hp', hother⟩ :=
    RightRotate_eval hx hy hxy hr hpar'
  have hsame : ∀ a, a ∈ w.map Prod.fst → a ≠ x → a ≠ y → t'.heap[a]? = t.heap[a]? := by
    intro a ha hax hay
    exact hother a hax hay (fun hp => hout a hp ha)
  have hfa : walk (f + 2) t'.heap m.left = some wa := by
    refine walk_frame t.heap t'.heap (f + 2) m.left wa
      (walk_mono _ _ _ _ (walk_mono _ _ _ _ hwa)) ?_
    intro a ha
    refine hsame a ?_ (fun e => hxa (e ▸ ha)) (fun e => hya (e ▸ ha))
    rw [hw]
    simp only [List.map_append, List.map_cons, List.mem_append, List.mem_cons]
    exact Or.inl (Or.inl ha)
  have hfb : walk (f + 1) t'.heap m.right = some wb := by
    refine walk_frame t.heap t'.heap (f + 1) m.right wb (walk_mono _ _ _ _ hwb) ?_
    intro a ha
    refine hsame a ?_ (fun e => hxb (e ▸ ha)) (fun e => hyb (e ▸ ha))
    rw [hw]
    simp only [List.map_append, List.map_cons, List.mem_append, List.mem_cons]
    exact Or.inl (Or.inr (Or.inr ha))
  have hfc : walk (f + 1) t'.heap n.right = some wc := by
    refine walk_frame t.heap t'.heap (f + 1) n.right wc hwc ?_
    intro a ha
    refine hsame a ?_ (fun e => hxc (e ▸ ha)) (fun e => hyc (e ▸ ha))
    rw [hw]
    simp only [List.map_append, List.map_cons, List.mem_append, List.mem_cons]
    exact Or.inr (Or.inr ha)
  have hwx : walk (f + 2) t'.heap (some x) =
      some (wb ++ (x, { n with parent := some y, left := m.right }) :: wc) :=
    walk_succ_of hx' hfb hfc
  have hwy : walk (f + 3) t'.heap (some y) =
      some (wa ++ (y, { m with parent := n.parent, right := some x }) ::
        (wb ++ (x, { n with parent := some y, left := m.right }) :: wc)) :=
    walk_succ_of hy' hfa hwx
  refine ⟨t', hrun, hroot, hcerr, hy', hx', hp', hother, ?_, ?_⟩
  · intro a
    by_cases hay : a = y
    · subst hay
      simp [hy', hy]
    · by_cases hax : a = x
      · subst hax
        simp [hx', hx]
      · by_cases hap : n.parent = some a
        · obtain ⟨np, hnp, _⟩ := hpar a hap
          rw [hp' a np hap hnp, hnp]
          by_cases hl : np.left = some x <;> simp [hl]
        · rw [hother a hax hay hap]
  · rw [inorder_of_walk hwy, inorder_of_walk hwalk, hw]
    simp

/-! ## The claims -/

/-- C1: the in-order traversal after each `Insert` should be the increasing list of the
distinct values inserted so far.  The code breaks this on nine distinct values: after
`Insert` of 1, 2, 3, 8, 9, 4, 5, 6 the traversal is still right, and the call `Insert(7)`
returns normally with the values 6 and 7 no longer reachable from `root_`. -/
theorem insert_inorder_lost :
    (do
      let t8 ← insertAll 16 RBTree.empty [1, 2, 3, 8, 9, 4, 5, 6]
      let t9 ← Insert 16 t8 7
      pure (t8.inorder 16, t9.inorder 16) : Except Fault _)
      = .ok (some [1, 2, 3, 4, 5, 6, 8, 9], some [1, 2, 3, 4, 5, 8, 9]) := by
  rfl

/-- C2: after each `Insert` of pairwise distinct values the tree should satisfy the colour
invariants.  The code breaks this on ten distinct values: after `Insert` of
1, 2, 3, 9, 10, 4, 6, 5, 7, 8 every value is in the traversal and the root is BLACK, but a
RED node has a RED child. -/
theorem insert_red_red :
    (do
      let t ← insertAll 16 RBTree.empty [1, 2, 3, 9, 10, 4, 6, 5, 7, 8]
      pure (t.inorder 16, t.rootBlack, noRedRed 16 t.heap t.root_) : Except Fault _)
      = .ok (some [1, 2, 3, 4, 5, 6, 7, 8, 9, 10], true, false) := by
  rfl

/-- C3: `Delete(x)` of a stored value should return true and leave the in-order traversal
of before with `x` removed.  On the tree built from 1, 2, 3, 4 the call `Delete(2)` returns
true and leaves the traversal 1, 4, 3, which is not increasing. -/
theorem delete_inorder_unsorted :
    (do
      let t ← insertAll 16 RBTree.empty [1, 2, 3, 4]
      let (t1, found) ← Delete 16 t 2
      pure (t.inorder 16, found, t1.inorder 16,
        (t1.inorder 16).map increasing) : Except Fault _)
      = .ok (some [1, 2, 3, 4], true, some [1, 4, 3], some false) := by
  rfl

/-- C4: after a `Delete` that returns true the tree should be empty or satisfy the red-black
invariants.  On the tree built from 1, 2, 3, 4 (which satisfies them) the call `Delete(1)`
returns true and leaves a tree with values 2, 3, 4 in which the paths from the root do not
pass through the same number of BLACK nodes. -/
theorem delete_black_height_broken :
    (do
      let t ← insertAll 16 RBTree.empty [1, 2, 3, 4]
      let (t1, found) ← Delete 16 t 1
      pure (t.colourOK 16, found, t1.inorder 16, t1.rootBlack, noRedRed 16 t1.heap t1.root_,
        blackHeight 16 t1.heap t1.root_) : Except Fault _)
      = .ok (true, true, some [2, 3, 4], true, true, none) := by
  rfl

/-- C5: on a tree (the child links from `root_` end within `fuel` levels, the empty tree
included) that stores `x` in no node, `Delete(x)` returns false and the whole state, that is
the root and every field of every node, is as before the call. -/
theorem delete_absent (fuel : Nat) (t : RBTree) (x : Int) (vs : List Int)
    (hwalk : t.inorder fuel = some vs) (hx : x ∉ vs) :
    Delete fuel t x = .ok (t, false) := by
  unfold Delete
  cases hr : t.root_ with
  | none => rfl
  | some r =>
    simp only [RBTree.inorder, RBT.inorder, Option.map_eq_some'] at hwalk
    obtain ⟨w, hw, rfl⟩ := hwalk
    have h := DeleteRecurse_absent t x fuel t.root_ w hw hx
    rw [hr] at h
    simp [h, bind, Except.bind, pure, Except.pure]

/-- The driver's tree does not store 8: `Delete(8)` returns false and changes nothing. -/
theorem delete_absent_witness :
    mainTree.inorder 16 = some [1, 2, 5, 7, 10, 15, 20, 30] ∧
      (8 : Int) ∉ [1, 2, 5, 7, 10, 15, 20, 30] ∧
      Delete 16 mainTree 8 = .ok (mainTree, false) :=
  ⟨rfl, by decide, delete_absent 16 mainTree 8 [1, 2, 5, 7, 10, 15, 20, 30] rfl (by decide)⟩

/-- C6: `Insert` of a value already stored should leave the reachable nodes, their
colours and their children as they are.  On the tree built from 1, 2, 3, 4, 5, 6 the call
`Insert(3)` moves the node holding 3 above the node holding 4 and leaves a tree that
violates the colour invariants. -/
theorem insert_duplicate_restructures :
    (do
      let t ← insertAll 16 RBTree.empty [1, 2, 3, 4, 5, 6]
      let t1 ← Insert 16 t 3
      pure (t.nodes 16, t.colourOK 16, t1.nodes 16, t1.colourOK 16) : Except Fault _)
      = .ok
        (some [(0, 1, Color.BLACK, none, none), (1, 2, Color.BLACK, some 0, some 3),
            (2, 3, Color.BLACK, none, none), (3, 4, Color.RED, some 2, some 4),
            (4, 5, Color.BLACK, none, some 5), (5, 6, Color.RED, none, none)],
          true,
          some [(0, 1, Color.BLACK, none, none), (1, 2, Color.BLACK, some 0, some 2),
            (2, 3, Color.BLACK, none, some 3), (3, 4, Color.RED, none, some 4),
            (4, 5, Color.BLACK, none, some 5), (5, 6, Color.RED, none, none)],
          false) := by
  rfl

/-- C7: `Insert` of a value already stored should leave the in-order sequence as it is.
After the calls `Insert` of 9, 8, 7, 2, 1, 5, 1, 4, 6, 3 the traversal is 1 to 9, and the
call `Insert(4)` of the stored value 4 returns normally with 3 and 4 no longer reachable
from `root_`. -/
theorem insert_duplicate_loses_values :
    (do
      let t ← insertAll 16 RBTree.empty [9, 8, 7, 2, 1, 5, 1, 4, 6, 3]
      let t1 ← Insert 16 t 4
      pure (t.inorder 16, t1.inorder 16) : Except Fault _)
      = .ok (some [1, 2, 3, 4, 5, 6, 7, 8, 9], some [1, 2, 5, 6, 7, 8, 9]) := by
  rfl

/-- C8: inserting N distinct values and deleting all of them in any order should make every
`Delete` return true and leave the empty tree.  After `Insert` of 1, 2, 3, 4 the calls
`Delete` of 2, 3, 1, 4 return true, false, true, true and the tree still holds 3. -/
theorem round_trip_fails :
    (do
      let t ← insertAll 16 RBTree.empty [1, 2, 3, 4]
      let (t1, found) ← deleteAll 16 t [2, 3, 1, 4]
      pure (found, t1.root_.isSome, t1.inorder 16) : Except Fault _)
      = .ok ([true, false, true, true], true, some [3]) := by
  rfl

/-- C9: the scenario of the driver.  `Insert` of 10, 5, 20, 1, 2, 7, 15, 30 gives the
in-order traversal 1, 2, 5, 7, 10, 15, 20, 30, a BLACK root, no RED node with a RED child
and two BLACK nodes on every path from the root; `Delete(10)` then returns true and leaves
the traversal 1, 2, 5, 7, 15, 20, 30 with the same three invariants. -/
theorem main_scenario :
    (do
      let t ← insertAll 16 RBTree.empty [10, 5, 20, 1, 2, 7, 15, 30]
      let (t1, found) ← Delete 16 t 10
      pure (t.inorder 16, t.rootBlack, noRedRed 16 t.heap t.root_,
        blackHeight 16 t.heap t.root_, found, t1.inorder 16, t1.rootBlack,
        noRedRed 16 t1.heap t1.root_, blackHeight 16 t1.heap t1.root_) : Except Fault _)
      = .ok (some [1, 2, 5, 7, 10, 15, 20, 30], true, true, some 2,
          true, some [1, 2, 5, 7, 15, 20, 30], true, true, some 2) := by
  rfl

/-- C10: let `x` be a node of a tree (the walk through the child links from `x` ends and
meets no node twice) whose parent link is empty or names a node that holds `x` in its left
or right field, and let `y` be a child of `x`.  If `y` is the right child, `LeftRotate(x)`
returns normally, writes no diagnostic and leaves `root_` alone; afterwards `y` has the
former parent link of `x` and `x` as left child, `x` has `y` as parent and the former left
subtree of `y` as right subtree, the field of the parent that held `x` holds `y`, every
other node is as before, no node has changed value or colour, and the in-order values below
`y` are those that were below `x`.  If `y` is the left child, `RightRotate(x)` does the
mirror image. -/
theorem rotate_spec (fuel : Nat) (t : RBTree) (x y : Nat) (n m : Node)
    (w : List (Nat × Node))
    (hx : t.heap[x]? = some n) (hy : t.heap[y]? = some m)
    (hwalk : walk fuel t.heap (some x) = some w) (hnodup : (w.map Prod.fst).Nodup)
    (hpar : ∀ p, n.parent = some p →
      ∃ np, t.heap[p]? = some np ∧ (np.left = some x ∨ np.right = some x)) :
    (n.right = some y →
      ∃ t', LeftRotate t (some x) = .ok t' ∧ t'.root_ = t.root_ ∧ t'.cerr = t.cerr ∧
        t'.heap[y]? = some { m with parent := n.parent, left := some x } ∧
        t'.heap[x]? = some { n with parent := some y, right := m.left } ∧
        (∀ p np, n.parent = some p → t.heap[p]? = some np →
          t'.heap[p]? = some (if np.left = some x then { np with left := some y }
            else { np with right := some y })) ∧
        (∀ a, a ≠ x → a ≠ y → n.parent ≠ some a → t'.heap[a]? = t.heap[a]?) ∧
        (∀ a : Nat, (t'.heap[a]?).map (fun k : Node => (k.value, k.color)) =
          (t.heap[a]?).map (fun k : Node => (k.value, k.color))) ∧
        inorder (fuel + 1) t'.heap (some y) = inorder fuel t.heap (some x)) ∧
    (n.left = some y →
      ∃ t', RightRotate t (some x) = .ok t' ∧ t'.root_ = t.root_ ∧ t'.cerr = t.cerr ∧
        t'.heap[y]? = some { m with parent := n.parent, right := some x } ∧
        t'.heap[x]? = some { n with parent := some y, left := m.right } ∧
        (∀ p np, n.parent = some p → t.heap[p]? = some np →
          t'.heap[p]? = some (if np.left = some x then { np with left := some y }
            else { np with right := some y })) ∧
        (∀ a, a ≠ x → a ≠ y → n.parent ≠ some a → t'.heap[a]? = t.heap[a]?) ∧
        (∀ a : Nat, (t'.heap[a]?).map (fun k : Node => (k.value, k.color)) =
          (t.heap[a]?).map (fun k : Node => (k.value, k.color))) ∧
        inorder (fuel + 1) t'.heap (some y) = inorder fuel t.heap (some x)) :=
  ⟨LeftRotate_spec hx hy hwalk hnodup hpar, RightRotate_spec hx hy hwalk hnodup hpar⟩

/-- Both rotations at the node holding 2 of the driver's tree (parent 10, children 1 and
5): the parent's left field takes the promoted node and the values below stay 1, 2, 5, 7. -/
theorem rotate_spec_witness :
    (walk 16 mainTree.heap (some 4)).map (fun w => w.map Prod.fst) = some [3, 4, 1, 5] ∧
      [3, 4, 1, 5].Nodup ∧
      (∃ t', LeftRotate mainTree (some 4) = .ok t' ∧
        t'.heap[0]? = some ⟨10, Color.BLACK, none, some 1, some 2⟩ ∧
        inorder 17 t'.heap (some 1) = some [1, 2, 5, 7]) ∧
      (∃ t', RightRotate mainTree (some 4) = .ok t' ∧
        t'.heap[0]? = some ⟨10, Color.BLACK, none, some 3, some 2⟩ ∧
        inorder 17 t'.heap (some 3) = some [1, 2, 5, 7]) := by
  have hpar : ∀ p, (some 0 : Ptr) = some p →
      ∃ np, mainTree.heap[p]? = some np ∧ (np.left = some 4 ∨ np.right = some 4) := by
    intro p hp
    cases hp
    exact ⟨_, rfl, Or.inl rfl⟩
  refine ⟨rfl, by decide, ?_, ?_⟩
  · obtain ⟨t', hrun, _, _, _, _, hp, _, _, hin⟩ :=
      (rotate_spec 16 mainTree 4 1 ⟨2, Color.RED, some 0, some 3, some 1⟩
        ⟨5, Color.BLACK, some 4, none, some 5⟩ _ rfl rfl rfl (by decide) hpar).1 rfl
    exact ⟨t', hrun, hp 0 _ rfl rfl, hin.trans rfl⟩
  · obtain ⟨t', hrun, _, _, _, _, hp, _, _, hin⟩ :=
      (rotate_spec 16 mainTree 4 3 ⟨2, Color.RED, some 0, some 3, some 1⟩
        ⟨1, Color.BLACK, some 4, none, none⟩ _ rfl rfl rfl (by decide) hpar).2 rfl
    exact ⟨t', hrun, hp 0 _ rfl rfl, hin.trans rfl⟩

/-- C12: a rotation should leave every parent link of the rotated subtree naming the node
that holds the node.  On the driver's tree, whose parent links are all consistent,
`LeftRotate` of the root (10) makes the node holding 15 the right child of 10 but leaves
its parent link at the node holding 20, and `RightRotate` of the root makes the node
holding 5 the left child of 10 but leaves its parent link at the node holding 2. -/
theorem rotate_leaves_stale_parent :
    (do
      let l ← LeftRotate mainTree (some 0)
      let r ← RightRotate mainTree (some 0)
      pure (parentsOK 16 mainTree.heap none mainTree.root_,
        (l.heap[0]?).map (fun n => n.right), (l.heap[6]?).map (fun n => n.parent),
        parentsOK 16 l.heap none (some 2),
        (r.heap[0]?).map (fun n => n.left), (r.heap[1]?).map (fun n => n.parent),
        parentsOK 16 r.heap none (some 4)) : Except Fault _)
      = .ok (true, some (some 6), some (some 2), false,
          some (some 1), some (some 4), false) := by
  rfl

/-- C13: when `Delete(x)` finds `x` in a node with two children, that node should afterwards
hold the value of its in-order successor.  The tree built from 1, 2, 3, 4 satisfies the
red-black invariants; the node holding 2 has two children and its successor holds 3 and
has a right child; after `Delete(2)` the node holds 4, not 3. -/
theorem delete_copies_wrong_value :
    (do
      let t ← insertAll 16 RBTree.empty [1, 2, 3, 4]
      let del ← DeleteRecurse 16 t t.root_ 2
      let d ← t.node del
      let s ← Successor 16 t del
      let sn ← t.node s
      let (t1, found) ← Delete 16 t 2
      let d1 ← t1.node del
      pure (t.colourOK 16, t.inorder 16, d.left.isSome, d.right.isSome, sn.value,
        sn.right.isSome, found, d1.value) : Except Fault _)
      = .ok (true, some [1, 2, 3, 4], true, true, 3, true, true, 4) := by
  rfl

/-- C14: in the far-child-RED case `DeleteFix` should put the sibling in the parent's place.
In the tree built from 1, 2, 3, 4 the node holding 1 (address 0) is BLACK and not the root,
its sibling 3 (address 2) is BLACK and the far child 4 (address 3) is RED.  After
`DeleteFix` the colours are as claimed, but the parent 2 (address 1) is still the root and
the sibling has become the left child of the far child; the BLACK counts of the paths
from the root are no longer equal. -/
theorem deleteFix_far_red_rotates_sibling :
    (do
      let t ← insertAll 16 RBTree.empty [1, 2, 3, 4]
      let t1 ← DeleteFix 16 t (some 0)
      pure (t.nodes 16, t1.nodes 16, t1.root_, (t1.heap[2]?).map (fun n => n.parent),
        blackHeight 16 t.heap (some 1), blackHeight 16 t1.heap (some 1)) : Except Fault _)
      = .ok
        (some [(0, 1, Color.BLACK, none, none), (1, 2, Color.BLACK, some 0, some 2),
            (2, 3, Color.BLACK, none, some 3), (3, 4, Color.RED, none, none)],
          some [(0, 1, Color.BLACK, none, none), (1, 2, Color.BLACK, some 0, some 3),
            (2, 3, Color.BLACK, none, none), (3, 4, Color.BLACK, some 2, none)],
          some 1, some (some 3), some 2, none) := by
  rfl

/-- C15: in the sibling-RED case at the root, `root_` should afterwards refer to the former
sibling.  In the tree built from 1 to 6 the root holds 2, the node to remove holds 1 and its
sibling 4 (address 3) is RED.  After `Delete(1)` the former sibling is BLACK, has no parent
and has the old parent as left child, but `root_` still refers to the old parent
(address 1): the values 4, 5 and 6 are no longer reachable from `root_`. -/
theorem delete_red_sibling_root_not_updated :
    (do
      let t ← insertAll 16 RBTree.empty [1, 2, 3, 4, 5, 6]
      let (t1, found) ← Delete 16 t 1
      pure (t.nodes 16, t.root_, found, t1.root_, t1.heap[3]?, t1.inorder 16) :
        Except Fault _)
      = .ok
        (some [(0, 1, Color.BLACK, none, none), (1, 2, Color.BLACK, some 0, some 3),
            (2, 3, Color.BLACK, none, none), (3, 4, Color.RED, some 2, some 4),
            (4, 5, Color.BLACK, none, some 5), (5, 6, Color.RED, none, none)],
          some 1, true, some 1,
          some ⟨4, Color.BLACK, none, some 1, some 4⟩,
          some [2, 3]) := by
  rfl

/-- C16: for a node `a` that is the root or is RED, `DeleteFix` returns normally and the
state it leaves is the state before with the colour of `a` set to BLACK: `root_`, the
diagnostics, every other node and the value and links of `a` are as before. -/
theorem deleteFix_root_or_red (fuel : Nat) (t : RBTree) (a : Nat) (n : Node)
    (ha : t.heap[a]? = some n) (hn : t.root_ = some a ∨ n.color = Color.RED) :
    ∃ t', DeleteFix (fuel + 1) t (some a) = .ok t' ∧
      t'.root_ = t.root_ ∧ t'.cerr = t.cerr ∧
      t'.heap[a]? = some { n with color := Color.BLACK } ∧
      ∀ b, b ≠ a → t'.heap[b]? = t.heap[b]? := by
  refine ⟨⟨t.heap.set a { n with color := Color.BLACK }, t.root_, t.cerr⟩, ?_, rfl, rfl, ?_, ?_⟩
  · simp [DeleteFix, RBTree.node, RBTree.setColor, RBTree.update, ha, hn, bind, Except.bind]
  · obtain ⟨hlt, _⟩ := List.getElem?_eq_some.mp ha
    simp [List.getElem?_set, hlt]
  · intro b hb
    simp [List.getElem?_set, Ne.symm hb]

/-- In the driver's tree the node holding 2 is RED: `DeleteFix` on it only makes it BLACK. -/
theorem deleteFix_root_or_red_witness :
    ∃ t', DeleteFix 1 mainTree (some 4) = .ok t' ∧
      t'.root_ = mainTree.root_ ∧ t'.cerr = mainTree.cerr ∧
      t'.heap[4]? = some ⟨2, Color.BLACK, some 0, some 3, some 1⟩ ∧
      ∀ b, b ≠ 4 → t'.heap[b]? = mainTree.heap[b]? :=
  deleteFix_root_or_red 0 mainTree 4 ⟨2, Color.RED, some 0, some 3, some 1⟩ rfl (Or.inr rfl)

/-- C17: the defensive branches should be unreachable for calls on pairwise distinct values.
Three runs on distinct values reach them.  After `Insert` of 4, 2, 1, 3 the call `Delete(1)`
takes an `illegal tree!` return of `DeleteFix`.  After `Insert` of 2, 4, 3, 1 and
`Delete(3)`, the call `Delete(1)` runs `DeleteFix` on the BLACK node at address 0, which is
the right child of a node without left child, and reading the sibling's colour
dereferences the empty pointer.  After `Insert` of 1, 2, 7, 9, 5, 6 and `Delete` of 7, 5, 1,
the call `Insert(4)` calls `LeftRotate` on a node without right child. -/
theorem defensive_branches_reached :
    (do
      let a ← runCalls 16 RBTree.empty [.insert 4, .insert 2, .insert 1, .insert 3]
      let (a1, _) ← Delete 16 a 1
      let b ← runCalls 16 RBTree.empty
        [.insert 2, .insert 4, .insert 3, .insert 1, .delete 3]
      let fix ← FixNode 16 b (some 3)
      let f ← b.node fix
      let p ← b.node f.parent
      let c ← runCalls 16 RBTree.empty [.insert 1, .insert 2, .insert 7, .insert 9,
        .insert 5, .insert 6, .delete 7, .delete 5, .delete 1]
      let c1 ← Insert 16 c 4
      pure (a.cerr, a1.cerr, b.cerr, fix, f.color, decide (b.root_ = fix), p.left, p.right,
        DeleteFix 16 b fix, Delete 16 b 1, c.cerr, c1.cerr) : Except Fault _)
      = .ok ([], [Diag.illegalTree], [], some 0, Color.BLACK, false, none, some 0,
          .error Fault.nullDeref, .error Fault.nullDeref,
          [Diag.illegalTree], [Diag.illegalTree, Diag.illegalLeftRotate]) := by
  rfl

/-- C18: on a node `x` without right child `LeftRotate` writes its diagnostic and changes
neither `root_` nor any node; on a node without left child `RightRotate` does the same. -/
theorem rotate_without_child (t : RBTree) (x : Nat) (n : Node) (hx : t.heap[x]? = some n) :
    (n.right = none →
      ∃ t', LeftRotate t (some x) = .ok t' ∧ t'.heap = t.heap ∧ t'.root_ = t.root_ ∧
        t'.cerr = t.cerr ++ [Diag.illegalLeftRotate]) ∧
    (n.left = none →
      ∃ t', RightRotate t (some x) = .ok t' ∧ t'.heap = t.heap ∧ t'.root_ = t.root_ ∧
        t'.cerr = t.cerr ++ [Diag.illegalRightRotate]) := by
  constructor
  · intro hr
    refine ⟨t.report Diag.illegalLeftRotate, ?_, rfl, rfl, rfl⟩
    simp [LeftRotate, RBTree.node, hx, hr, bind, Except.bind, pure, Except.pure]
  · intro hl
    refine ⟨t.report Diag.illegalRightRotate, ?_, rfl, rfl, rfl⟩
    simp [RightRotate, RBTree.node, hx, hl, bind, Except.bind, pure, Except.pure]

/-- The node holding 1 of the driver's tree has no children: neither rotation changes the
tree. -/
theorem rotate_without_child_witness :
    (∃ t', LeftRotate mainTree (some 3) = .ok t' ∧ t'.heap = mainTree.heap ∧
        t'.root_ = mainTree.root_ ∧ t'.cerr = mainTree.cerr ++ [Diag.illegalLeftRotate]) ∧
    (∃ t', RightRotate mainTree (some 3) = .ok t' ∧ t'.heap = mainTree.heap ∧
        t'.root_ = mainTree.root_ ∧ t'.cerr = mainTree.cerr ++ [Diag.illegalRightRotate]) :=
  ⟨(rotate_without_child mainTree 3 ⟨1, Color.BLACK, some 4, none, none⟩ rfl).1 rfl,
    (rotate_without_child mainTree 3 ⟨1, Color.BLACK, some 4, none, none⟩ rfl).2 rfl⟩

/-- What `noRedRed` says at a node. -/
theorem noRedRed_node {f : Nat} {h : List Node} {a : Nat} {n : Node}
    (hn : h[a]? = some n) (hr : noRedRed (f + 1) h (some a) = true) :
    noRedRed f h n.left = true ∧ noRedRed f h n.right = true ∧
      (n.color = Color.RED → isRedPtr h n.left = false ∧ isRedPtr h n.right = false) := by
  simp only [noRedRed, hn, Bool.and_eq_true, Bool.not_eq_true', Bool.and_eq_false_iff,
    decide_eq_false_iff_not, Bool.or_eq_false_iff] at hr
  obtain ⟨⟨hc, hl⟩, hr'⟩ := hr
  refine ⟨hl, hr', ?_⟩
  intro hred
  rcases hc with hc | hc
  · exact absurd hred hc
  · exact hc

/-- What `blackHeight` says at a node. -/
theorem blackHeight_node {f : Nat} {h : List Node} {a : Nat} {n : Node} {k : Nat}
    (hn : h[a]? = some n) (hb : blackHeight (f + 1) h (some a) = some k) :
    ∃ l, blackHeight f h n.left = some l ∧ blackHeight f h n.right = some l ∧
      k = if n.color = Color.BLACK then l + 1 else l := by
  simp only [blackHeight, hn] at hb
  split at hb
  · rename_i l r hl hr
    split at hb
    · rename_i hlr
      subst hlr
      exact ⟨l, hl, hr, by simpa using hb.symm⟩
    · simp at hb
  · simp at hb

theorem blackHeight_none (f : Nat) (h : List Node) : blackHeight f h none = some 0 := by
  cases f <;> rfl

theorem noRedRed_none (f : Nat) (h : List Node) : noRedRed f h none = true := by
  cases f <;> rfl

/-- More fuel does not change a black height that was found. -/
theorem blackHeight_mono (h : List Node) :
    ∀ (f : Nat) (p : Ptr) (k : Nat), blackHeight f h p = some k →
      blackHeight (f + 1) h p = some k := by
  intro f
  induction f with
  | zero =>
    intro p k hb
    cases p with
    | none => simpa [blackHeight_none] using hb
    | some a => simp [blackHeight] at hb
  | succ f ih =>
    intro p k hb
    cases p with
    | none => simpa [blackHeight_none] using hb
    | some a =>
      cases hn : h[a]? with
      | none => simp [blackHeight, hn] at hb
      | some n =>
        obtain ⟨l, hl, hr, hk⟩ := blackHeight_node hn hb
        simp [blackHeight, hn, ih _ _ hl, ih _ _ hr, hk]

/-- More fuel does not change a successful red-red check. -/
theorem noRedRed_mono (h : List Node) :
    ∀ (f : Nat) (p : Ptr), noRedRed f h p = true → noRedRed (f + 1) h p = true := by
  intro f
  induction f with
  | zero =>
    intro p hr
    cases p with
    | none => rfl
    | some a => simp [noRedRed] at hr
  | succ f ih =>
    intro p hr
    cases p with
    | none => rfl
    | some a =>
      cases hn : h[a]? with
      | none => simp [noRedRed, hn] at hr
      | some n =>
        obtain ⟨hl, hr', hc⟩ := noRedRed_node hn hr
        have h1 := ih _ hl
        have h2 := ih _ hr'
        simp only [noRedRed, hn] at hr ⊢
        simp only [Bool.and_eq_true] at hr ⊢
        exact ⟨⟨hr.1.1, h1⟩, h2⟩

/-- A subtree of black height 0 starts with a RED node whose subtrees have black height 0. -/
theorem blackHeight_zero {f : Nat} {h : List Node} {c : Nat}
    (hb : blackHeight f h (some c) = some 0) :
    ∃ nc g, f = g + 1 ∧ h[c]? = some nc ∧ nc.color = Color.RED ∧
      blackHeight g h nc.left = some 0 ∧ blackHeight g h nc.right = some 0 := by
  cases f with
  | zero => simp [blackHeight] at hb
  | succ g =>
    cases hn : h[c]? with
    | none => simp [blackHeight, hn] at hb
    | some nc =>
      obtain ⟨l, hl, hr, hk⟩ := blackHeight_node hn hb
      cases hcol : nc.color with
      | BLACK => simp [hcol] at hk
      | RED =>
        simp [hcol] at hk
        subst hk
        exact ⟨nc, g, rfl, rfl, hcol, hl, hr⟩

/-- In a red-black subtree, a non-empty subtree of black height 0 is a single node. -/
theorem leaf_of_blackHeight_zero {f : Nat} {h : List Node} {c : Nat}
    (hb : blackHeight f h (some c) = some 0) (hr : noRedRed f h (some c) = true) :
    ∃ nc, h[c]? = some nc ∧ nc.left = none ∧ nc.right = none := by
  obtain ⟨nc, g, rfl, hn, hcol, hbl, hbr⟩ := blackHeight_zero hb
  obtain ⟨_, _, hc⟩ := noRedRed_node hn hr
  obtain ⟨hl, hr'⟩ := hc hcol
  refine ⟨nc, hn, ?_, ?_⟩
  · cases hleft : nc.left with
    | none => rfl
    | some e =>
      rw [hleft] at hbl hl
      obtain ⟨ne, _, _, hne, hecol, _, _⟩ := blackHeight_zero hbl
      simp [isRedPtr, hne, hecol] at hl
  · cases hright : nc.right with
    | none => rfl
    | some e =>
      rw [hright] at hbr hr'
      obtain ⟨ne, _, _, hne, hecol, _, _⟩ := blackHeight_zero hbr
      simp [isRedPtr, hne, hecol] at hr'

/-- The two colour invariants of a tree hold below each of its nodes. -/
theorem invariants_below (h : List Node) :
    ∀ (f : Nat) (p : Ptr) (w : List (Nat × Node)) (k : Nat), walk f h p = some w →
      noRedRed f h p = true → blackHeight f h p = some k →
      ∀ d, d ∈ w.map Prod.fst →
        noRedRed f h (some d) = true ∧ ∃ k', blackHeight f h (some d) = some k' := by
  intro f
  induction f with
  | zero =>
    intro p w k hw _ _ d hd
    cases p with
    | none => simp [walk_none] at hw; subst hw; simp at hd
    | some a => simp [walk] at hw
  | succ f ih =>
    intro p w k hw hr hb d hd
    cases p with
    | none => simp [walk_none] at hw; subst hw; simp at hd
    | some a =>
      obtain ⟨n, l, r, hn, hl, hr', rfl⟩ := walk_succ_some hw
      obtain ⟨hrl, hrr, _⟩ := noRedRed_node hn hr
      obtain ⟨bl, hbl, hbr, _⟩ := blackHeight_node hn hb
      simp only [List.map_append, List.map_cons, List.mem_append, List.mem_cons] at hd
      rcases hd with hd | rfl | hd
      · obtain ⟨h1, k', h2⟩ := ih _ _ _ hl hrl hbl d hd
        exact ⟨noRedRed_mono h f _ h1, k', blackHeight_mono h f _ _ h2⟩
      · exact ⟨hr, k, hb⟩
      · obtain ⟨h1, k', h2⟩ := ih _ _ _ hr' hrr hbr d hd
        exact ⟨noRedRed_mono h f _ h1, k', blackHeight_mono h f _ _ h2⟩

/-- The loop of `Successor` ends at a node without left child, below which the invariants
hold. -/
theorem leftmost_spec (t : RBTree) :
    ∀ (f : Nat) (a : Nat) (k : Nat), noRedRed f t.heap (some a) = true →
      blackHeight f t.heap (some a) = some k →
      ∃ s ns, leftmost f t (some a) = .ok (some s) ∧ t.heap[s]? = some ns ∧
        ns.left = none ∧ noRedRed f t.heap (some s) = true ∧
        ∃ k', blackHeight f t.heap (some s) = some k' := by
  intro f
  induction f with
  | zero =>
    intro a k hr _
    simp [noRedRed] at hr
  | succ f ih =>
    intro a k hr hb
    cases hn : t.heap[a]? with
    | none => simp [noRedRed, hn] at hr
    | some n =>
      obtain ⟨hrl, _, _⟩ := noRedRed_node hn hr
      obtain ⟨bl, hbl, _, _⟩ := blackHeight_node hn hb
      cases hleft : n.left with
      | none =>
        refine ⟨a, n, ?_, hn, hleft, hr, k, hb⟩
        simp [leftmost, RBTree.node, hn, hleft, bind, Except.bind, pure, Except.pure]
      | some c =>
        rw [hleft] at hrl hbl
        obtain ⟨s, ns, hrun, hs, hsl, hsr, k', hsb⟩ := ih c bl hrl hbl
        refine ⟨s, ns, ?_, hs, hsl, noRedRed_mono _ _ _ hsr, k', blackHeight_mono _ _ _ _ hsb⟩
        simp [leftmost, RBTree.node, hn, hleft, hrun, bind, Except.bind]

/-- `FixNode` on a node without left child, below which the invariants hold. -/
theorem FixNode_no_left (t : RBTree) (f : Nat) (s : Nat) (ns : Node) (k : Nat)
    (hs : t.heap[s]? = some ns) (hleft : ns.left = none)
    (hr : noRedRed (f + 1) t.heap (some s) = true)
    (hb : blackHeight (f + 1) t.heap (some s) = some k) :
    ∃ x nx, FixNode (f + 1) t (some s) = .ok (some x) ∧ t.heap[x]? = some nx ∧
      nx.left = none ∧ nx.right = none := by
  obtain ⟨_, hrr, _⟩ := noRedRed_node hs hr
  obtain ⟨bl, hbl, hbr, _⟩ := blackHeight_node hs hb
  rw [hleft, blackHeight_none] at hbl
  cases hbl
  cases hright : ns.right with
  | none =>
    refine ⟨s, ns, ?_, hs, hleft, hright⟩
    simp [FixNode, RBTree.node, hs, hleft, hright, bind, Except.bind, pure, Except.pure]
  | some c =>
    rw [hright] at hbr hrr
    obtain ⟨nc, hc, hcl, hcr⟩ := leaf_of_blackHeight_zero hbr hrr
    refine ⟨c, nc, ?_, hc, hcl, hcr⟩
    simp [FixNode, RBTree.node, hs, hleft, hright, bind, Except.bind, pure, Except.pure]

/-- `FixNode` on any node of a tree that satisfies the colour invariants returns a node
without children. -/
theorem FixNode_childless (fuel : Nat) (t : RBTree) (w : List (Nat × Node)) (k : Nat)
    (d : Nat) (hwalk : walk fuel t.heap t.root_ = some w)
    (hred : noRedRed fuel t.heap t.root_ = true)
    (hbh : blackHeight fuel t.heap t.root_ = some k)
    (hd : d ∈ w.map Prod.fst) :
    ∃ x nx, FixNode (fuel + 1) t (some d) = .ok (some x) ∧ t.heap[x]? = some nx ∧
      nx.left = none ∧ nx.right = none := by
  obtain ⟨hr, kd, hb⟩ := invariants_below t.heap fuel t.root_ w k hwalk hred hbh d hd
  cases fuel with
  | zero => simp [noRedRed] at hr
  | succ f =>
  cases hn : t.heap[d]? with
  | none => simp [noRedRed, hn] at hr
  | some n =>
    obtain ⟨hrl, hrr, _⟩ := noRedRed_node hn hr
    obtain ⟨bl, hbl, hbr, _⟩ := blackHeight_node hn hb
    cases hleft : n.left with
    | none =>
      obtain ⟨x, nx, hrun, hx, hxl, hxr⟩ := FixNode_no_left t f d n kd hn hleft hr hb
      have hrun' : FixNode (f + 2) t (some d) = .ok (some x) := by
        cases hright : n.right with
        | none =>
          simp [FixNode, RBTree.node, hn, hleft, hright, bind, Except.bind, pure, Except.pure]
            at hrun ⊢
          exact hrun
        | some c =>
          simp [FixNode, RBTree.node, hn, hleft, hright, bind, Except.bind, pure, Except.pure]
            at hrun ⊢
          exact hrun
      exact ⟨x, nx, hrun', hx, hxl, hxr⟩
    | some c =>
      cases hright : n.right with
      | none =>
        rw [hright, blackHeight_none] at hbr
        cases hbr
        rw [hleft] at hbl hrl
        obtain ⟨nc, hc, hcl, hcr⟩ := leaf_of_blackHeight_zero hbl hrl
        refine ⟨c, nc, ?_, hc, hcl, hcr⟩
        simp [FixNode, RBTree.node, hn, hleft, hright, bind, Except.bind, pure, Except.pure]
      | some e =>
        rw [hright] at hbr hrr
        obtain ⟨s, ns, hrun, hs, hsl, hsr, ks, hsb⟩ :=
          leftmost_spec t (f + 1) e bl (noRedRed_mono _ _ _ hrr) (blackHeight_mono _ _ _ _ hbr)
        obtain ⟨x, nx, hfix, hx, hxl, hxr⟩ := FixNode_no_left t f s ns ks hs hsl hsr hsb
        have hstep : FixNode (f + 2) t (some d) = FixNode (f + 1) t (some s) := by
          rw [FixNode]
          simp only [RBTree.node, hn, hleft, hright, Successor, hrun, bind, Except.bind,
            pure, Except.pure]
        exact ⟨x, nx, hstep.trans hfix, hx, hxl, hxr⟩

/-- In a tree that satisfies the colour invariants (no RED node with a RED child, the same
number of BLACK nodes on all paths) `FixNode` on any node `d` of the tree returns normally,
and the node it returns has neither a left nor a right child: the subtree below it is that
one node.  Which slot `Delete` clears afterwards is another matter, see
`delete_clears_wrong_slot`. -/
theorem fixNode_returns_leaf (fuel : Nat) (t : RBTree) (w : List (Nat × Node)) (k : Nat)
    (d : Nat) (hwalk : walk fuel t.heap t.root_ = some w)
    (hred : noRedRed fuel t.heap t.root_ = true)
    (hbh : blackHeight fuel t.heap t.root_ = some k)
    (hd : d ∈ w.map Prod.fst) :
    ∃ x nx, FixNode (fuel + 1) t (some d) = .ok (some x) ∧ t.heap[x]? = some nx ∧
      nx.left = none ∧ nx.right = none ∧ walk 1 t.heap (some x) = some [(x, nx)] := by
  obtain ⟨x, nx, hrun, hx, hl, hr⟩ := FixNode_childless fuel t w k d hwalk hred hbh hd
  refine ⟨x, nx, hrun, hx, hl, hr, ?_⟩
  simp [walk, hx, hl, hr]

/-- In the driver's tree the root (10) has two children; `FixNode` returns the node holding
15, which has no children. -/
theorem fixNode_returns_leaf_witness :
    ∃ x nx, FixNode 17 mainTree (some 0) = .ok (some x) ∧ mainTree.heap[x]? = some nx ∧
      nx.left = none ∧ nx.right = none ∧ walk 1 mainTree.heap (some x) = some [(x, nx)] :=
  fixNode_returns_leaf 16 mainTree _ 2 0 rfl rfl rfl (by decide)

/-- C19: on a tree that satisfies the red-black invariants `FixNode` returns a childless
node, and clearing the child slot of its parent at the end of `Delete` should detach that
one node and nothing else.  The tree built by Insert 1, 2, 6, 7, 8, 4, 5, 3 stores 1 to 8
in order and satisfies the three colour invariants; the node holding 6 (address 2) is the
left child of the node holding 7 (address 3), but its parent link, left stale by a
rotation, names the root 5 (address 6).  `FixNode` returns the node holding 6 itself, which
has no children.  `DeleteFix` and the last lines of `Delete` follow the stale link: after
`DeleteFix` the node 5 has the node holding 3 as left child and the node holding 7, with 6
and 8 below it, as right child; the left field of 5 is not the node to remove, so `Delete`
clears the right field of 5 and drops the subtree 6, 7, 8.  `Delete(6)` returns true and
the traversal from `root_` is 3, 4, 5. -/
theorem delete_clears_wrong_slot :
    (do
      let t ← insertAll 16 RBTree.empty [1, 2, 6, 7, 8, 4, 5, 3]
      let d ← DeleteRecurse 16 t t.root_ 6
      let fix ← FixNode 16 t d
      let f ← t.node fix
      let t2 ← DeleteFix 16 t fix
      let f2 ← t2.node fix
      let p2 ← t2.node f2.parent
      let (t3, found) ← Delete 16 t 6
      let p3 ← t3.node f2.parent
      pure (t.nodes 16, t.colourOK 16, d, fix, f.left, f.right, f.parent,
        f2.parent, p2.value, p2.left, p2.right, inorder 16 t2.heap p2.right,
        found, p3.right, t3.root_, t3.inorder 16) : Except Fault _)
      = .ok
        (some [(0, 1, Color.BLACK, none, none), (1, 2, Color.RED, some 0, some 5),
            (7, 3, Color.RED, none, none), (5, 4, Color.BLACK, some 7, none),
            (6, 5, Color.BLACK, some 1, some 3), (2, 6, Color.BLACK, none, none),
            (3, 7, Color.RED, some 2, some 4), (4, 8, Color.BLACK, none, none)],
          true, some 2, some 2, none, none, some 6,
          some 6, 5, some 7, some 3, some [6, 7, 8],
          true, none, some 6, some [3, 4, 5]) := by
  rfl

/-- A colour assignment that returns has written the colour into the node named. -/
theorem setColor_ok {t t' : RBTree} {p : Ptr} {c : Color} (h : t.setColor p c = .ok t') :
    ∃ a n, p = some a ∧ t.heap[a]? = some n ∧ t'.root_ = t.root_ ∧
      t'.heap[a]? = some { n with color := c } := by
  cases p with
  | none => simp [RBTree.setColor, RBTree.update] at h
  | some a =>
    cases hn : t.heap[a]? with
    | none => simp [RBTree.setColor, RBTree.update, hn] at h
    | some n =>
      simp only [RBTree.setColor, RBTree.update, hn, Except.ok.injEq] at h
      subst h
      obtain ⟨hlt, _⟩ := List.getElem?_eq_some.mp hn
      exact ⟨a, n, rfl, hn, rfl, by simp [List.getElem?_set, hlt]⟩

/-! ## Insert returns on a tree with consistent parent links -/

theorem validPtr_some {h : List Node} {a : Nat} : validPtr h (some a) = true ↔ a < h.length := by
  simp [validPtr]

theorem closed_iff {h : List Node} :
    closed h = true ↔ ∀ (a : Nat) (n : Node), h[a]? = some n →
      validPtr h n.parent = true ∧ validPtr h n.left = true ∧ validPtr h n.right = true := by
  simp only [closed, List.all_eq_true, Bool.and_eq_true]
  constructor
  · intro hall a n hn
    have hmem : n ∈ h := List.getElem?_mem hn
    obtain ⟨⟨h1, h2⟩, h3⟩ := hall n hmem
    exact ⟨h1, h2, h3⟩
  · intro hall n hmem
    obtain ⟨a, hn'⟩ := List.mem_iff_getElem?.mp hmem
    obtain ⟨h1, h2, h3⟩ := hall a n hn'
    exact ⟨⟨h1, h2⟩, h3⟩

theorem validPtr_set {h : List Node} {a : Nat} {k : Node} {p : Ptr}
    (hp : validPtr h p = true) : validPtr (h.set a k) p = true := by
  cases p with
  | none => rfl
  | some b => simpa [validPtr] using hp

/-- Writing a node whose pointers are valid keeps the heap closed. -/
theorem closed_set {h : List Node} {a : Nat} {k : Node} (hc : closed h = true)
    (hk : validPtr h k.parent = true ∧ validPtr h k.left = true ∧ validPtr h k.right = true) :
    closed (h.set a k) = true := by
  rw [closed_iff] at hc ⊢
  intro b n hn
  rw [List.getElem?_set] at hn
  split at hn
  · split at hn
    · cases hn
      exact ⟨validPtr_set hk.1, validPtr_set hk.2.1, validPtr_set hk.2.2⟩
    · simp at hn
  · obtain ⟨h1, h2, h3⟩ := hc b n hn
    exact ⟨validPtr_set h1, validPtr_set h2, validPtr_set h3⟩

/-- A write through a valid pointer returns; if the change keeps the node's pointers valid,
the heap stays closed. -/
theorem update_total {t : RBTree} {a : Nat} (f : Node → Node) (ha : a < t.heap.length) :
    ∃ n, t.heap[a]? = some n ∧
      t.update (some a) f = .ok ⟨t.heap.set a (f n), t.root_, t.cerr⟩ := by
  have hn : t.heap[a]? = some t.heap[a] := by simp [ha]
  exact ⟨t.heap[a], hn, by simp [RBTree.update, ha]⟩

/-- `AdjustTree` on a node without parent link returns at once (source line 170). -/
theorem AdjustTree_no_parent {F : Nat} {t : RBTree} {a : Nat} {na : Node}
    (ha : t.heap[a]? = some na) (hpa : na.parent = none) :
    AdjustTree (F + 1) t (some a) = .ok t := by
  simp only [AdjustTree, RBTree.node, ha, hpa, bind, Except.bind, pure, Except.pure]

/-- `AdjustTree` on a node with BLACK parent returns at once (source line 170). -/
theorem AdjustTree_black_parent {F : Nat} {t : RBTree} {a b : Nat} {na mb : Node}
    (ha : t.heap[a]? = some na) (hpa : na.parent = some b)
    (hb : t.heap[b]? = some mb) (hblack : mb.color = Color.BLACK) :
    AdjustTree (F + 1) t (some a) = .ok t := by
  simp only [AdjustTree, RBTree.node, ha, hpa, hb, hblack, bind, Except.bind, pure,
    Except.pure, if_true]

/-- The RED-uncle step of `AdjustTree` (source lines 178-181, 197-200 and 218-224). -/
theorem AdjustTree_uncle {F : Nat} {t : RBTree} {a b g : Nat} {na mb gn : Node}
    (ha : t.heap[a]? = some na) (hpa : na.parent = some b)
    (hb : t.heap[b]? = some mb) (hred : mb.color = Color.RED) (hpg : mb.parent = some g)
    (hg : t.heap[g]? = some gn) (u : Nat)
    (hu : (if some b = gn.left then gn.right else gn.left) = some u)
    (hunc : t.hasColor (some u) Color.RED = .ok true) :
    AdjustTree (F + 1) t (some a) =
      (do
        let t2 ← t.setColor (some b) Color.BLACK
        let t3 ← t2.setColor (some u) Color.BLACK
        let t4 ← t3.setColor (some g) Color.RED
        AdjustTree F t4 (some g)) := by
  by_cases hl : some b = gn.left
  · rw [if_pos hl] at hu
    simp [AdjustTree, RBTree.node, ha, hpa, hb, hred, hpg, hg, hl.symm, hu, hunc, bind,
      Except.bind, pure, Except.pure]
  · rw [if_neg hl] at hu
    have hbu : ¬ b = u := fun e => hl (by rw [hu, e])
    simp [AdjustTree, RBTree.node, ha, hpa, hb, hred, hpg, hg, hu, hbu, hunc, bind,
      Except.bind, pure, Except.pure]

/-- The straight left shape of `AdjustTree` (source lines 183-190). -/
theorem AdjustTree_left_straight {F : Nat} {t : RBTree} {a b g : Nat} {na mb gn : Node}
    (ha : t.heap[a]? = some na) (hpa : na.parent = some b)
    (hb : t.heap[b]? = some mb) (hred : mb.color = Color.RED) (hpg : mb.parent = some g)
    (hg : t.heap[g]? = some gn) (hleft : gn.left = some b)
    (hunc : t.hasColor gn.right Color.RED = .ok false) (hstr : mb.left = some a) :
    AdjustTree (F + 1) t (some a) =
      (do
        let s1 ← t.setColor (some b) Color.BLACK
        let s2 ← s1.setColor (some g) Color.RED
        let s3 ← RightRotate s2 (some g)
        if s3.root_ = some g then pure { s3 with root_ := some b } else pure s3) := by
  simp [AdjustTree, RBTree.node, ha, hpa, hb, hred, hpg, hg, hleft, hunc, hstr, bind,
    Except.bind, pure, Except.pure]

/-- The bent left shape of `AdjustTree` (source lines 191-195). -/
theorem AdjustTree_left_bent {F : Nat} {t : RBTree} {a b g : Nat} {na mb gn : Node}
    (ha : t.heap[a]? = some na) (hpa : na.parent = some b)
    (hb : t.heap[b]? = some mb) (hred : mb.color = Color.RED) (hpg : mb.parent = some g)
    (hg : t.heap[g]? = some gn) (hleft : gn.left = some b)
    (hunc : t.hasColor gn.right Color.RED = .ok false) (hbent : ¬ some a = mb.left) :
    AdjustTree (F + 1) t (some a) =
      (do
        let s1 ← LeftRotate t (some b)
        AdjustTree F s1 (some b)) := by
  simp only [AdjustTree, RBTree.node, ha, hpa, hb, hred, hpg, hg, hleft, hunc, hbent, bind,
    Except.bind, pure, Except.pure]
  simp
  cases LeftRotate t (some b) with
  | error e => rfl
  | ok s1 =>
    simp
    cases AdjustTree F s1 (some b) <;> rfl

/-- The straight right shape of `AdjustTree` (source lines 202-209). -/
theorem AdjustTree_right_straight {F : Nat} {t : RBTree} {a b g : Nat} {na mb gn : Node}
    (ha : t.heap[a]? = some na) (hpa : na.parent = some b)
    (hb : t.heap[b]? = some mb) (hred : mb.color = Color.RED) (hpg : mb.parent = some g)
    (hg : t.heap[g]? = some gn) (hleft : ¬ some b = gn.left)
    (hunc : t.hasColor gn.left Color.RED = .ok false) (hstr : mb.right = some a) :
    AdjustTree (F + 1) t (some a) =
      (do
        let s1 ← t.setColor (some b) Color.BLACK
        let s2 ← s1.setColor (some g) Color.RED
        let s3 ← LeftRotate s2 (some g)
        if s3.root_ = some g then pure { s3 with root_ := some b } else pure s3) := by
  simp only [AdjustTree, RBTree.node, ha, hpa, hb, hred, hpg, hg, hleft, hunc, hstr, bind,
    Except.bind, pure, Except.pure]
  simp

/-- The bent right shape of `AdjustTree` (source lines 210-214). -/
theorem AdjustTree_right_bent {F : Nat} {t : RBTree} {a b g : Nat} {na mb gn : Node}
    (ha : t.heap[a]? = some na) (hpa : na.parent = some b)
    (hb : t.heap[b]? = some mb) (hred : mb.color = Color.RED) (hpg : mb.parent = some g)
    (hg : t.heap[g]? = some gn) (hleft : ¬ some b = gn.left)
    (hunc : t.hasColor gn.left Color.RED = .ok false) (hbent : ¬ some a = mb.right) :
    AdjustTree (F + 1) t (some a) =
      (do
        let s1 ← RightRotate t (some b)
        AdjustTree F s1 (some b)) := by
  simp only [AdjustTree, RBTree.node, ha, hpa, hb, hred, hpg, hg, hleft, hunc, hbent, bind,
    Except.bind, pure, Except.pure]
  simp
  cases RightRotate t (some b) with
  | error e => rfl
  | ok s1 =>
    simp
    cases AdjustTree F s1 (some b) <;> rfl

/-- The state a colour assignment through a valid pointer leaves. -/
theorem setColor_eval {t : RBTree} {a : Nat} {n : Node} (hn : t.heap[a]? = some n)
    (c : Color) :
    t.setColor (some a) c = .ok ⟨t.heap.set a { n with color := c }, t.root_, t.cerr⟩ := by
  simp [RBTree.setColor, RBTree.update, hn]

/-- Reading a heap after one write. -/
theorem get_set {h : List Node} {a : Nat} {n k : Node} (hn : h[a]? = some n) (z : Nat) :
    (h.set a k)[z]? = if z = a then some k else h[z]? := by
  obtain ⟨hlt, _⟩ := List.getElem?_eq_some.mp hn
  by_cases hz : z = a
  · subst hz
    simp [List.getElem?_set, hlt]
  · have hz' : ¬ a = z := fun e => hz e.symm
    simp [List.getElem?_set, hz, hz']

theorem closed_setColor {h : List Node} {a : Nat} {n : Node} (hc : closed h = true)
    (hn : h[a]? = some n) (c : Color) : closed (h.set a { n with color := c }) = true := by
  have hv := (closed_iff.mp hc) a n hn
  exact closed_set hc hv

/-- The red test on a pointer stored in a node of a closed heap returns. -/
theorem hasColor_total {t : RBTree} (hc : closed t.heap = true) {g : Nat} {gn : Node}
    (hg : t.heap[g]? = some gn) (p : Ptr) (hp : p = gn.left ∨ p = gn.right) (c : Color) :
    t.hasColor p c = .ok false ∨
      ∃ u nu, p = some u ∧ t.heap[u]? = some nu ∧ nu.color = c ∧
        t.hasColor p c = .ok true := by
  have hv := (closed_iff.mp hc) g gn hg
  cases hpu : p with
  | none => left; rfl
  | some u =>
    have hvalid : validPtr t.heap (some u) = true := by
      rcases hp with hp | hp
      · rw [← hpu, hp]; exact hv.2.1
      · rw [← hpu, hp]; exact hv.2.2
    have hlt : u < t.heap.length := validPtr_some.mp hvalid
    have hn : t.heap[u]? = some t.heap[u] := by simp [hlt]
    by_cases hcol : t.heap[u].color = c
    · right
      exact ⟨u, _, rfl, hn, hcol, by simp [RBTree.hasColor, RBTree.node, hn, hcol, Except.map]⟩
    · left
      simp [RBTree.hasColor, RBTree.node, hn, hcol, Except.map]

/-- A chain only depends on the links of its nodes and on the last one being BLACK. -/
theorem goodChain_congr {h h' : List Node} :
    ∀ (c : List Nat), goodChain h c →
      (∀ a ∈ c, ∀ n, h[a]? = some n → ∃ n', h'[a]? = some n' ∧ n'.parent = n.parent ∧
        n'.left = n.left ∧ n'.right = n.right) →
      (∀ a ∈ c.tail, ∀ n n', h[a]? = some n → h'[a]? = some n' →
        n.color = Color.BLACK → n'.color = Color.BLACK) →
      goodChain h' c := by
  intro c
  induction c with
  | nil => intro hc _ _; exact hc
  | cons a rest ih =>
    intro hc hlinks hcol
    cases rest with
    | nil =>
      obtain ⟨n, hn, hp⟩ := hc
      obtain ⟨n', hn', hp', _, _⟩ := hlinks a (by simp) n hn
      exact ⟨n', hn', hp'.trans hp⟩
    | cons b rest' =>
      obtain ⟨⟨n, hn, hp⟩, ⟨m, hm, hholds, hblack⟩, hrest⟩ := hc
      obtain ⟨n', hn', hp', _, _⟩ := hlinks a (by simp) n hn
      obtain ⟨m', hm', _, hl', hr'⟩ := hlinks b (by simp) m hm
      refine ⟨⟨n', hn', hp'.trans hp⟩, ⟨m', hm', ?_, ?_⟩, ?_⟩
      · rw [hl', hr']; exact hholds
      · intro he
        exact hcol b (by simp) m m' hm hm' (hblack he)
      · apply ih hrest
        · intro z hz
          exact hlinks z (List.mem_cons_of_mem _ hz)
        · intro z hz
          have hz' : z ∈ rest' := by simpa using hz
          exact hcol z (by simp [hz']) 

/-- The recolouring and right rotation of the straight left shape return. -/
theorem straight_left_total {t : RBTree} {b g : Nat} {mb gn : Node}
    (hb : t.heap[b]? = some mb) (hg : t.heap[g]? = some gn) (hbg : b ≠ g)
    (hleft : gn.left = some b)
    (hpar : ∀ p, gn.parent = some p → p ≠ g ∧ p ≠ b ∧
      ∃ np, t.heap[p]? = some np ∧ (np.left = some g ∨ np.right = some g))
    (hroot : t.rootPresent) :
    ∃ t', (do
        let s1 ← t.setColor (some b) Color.BLACK
        let s2 ← s1.setColor (some g) Color.RED
        let s3 ← RightRotate s2 (some g)
        if s3.root_ = some g then pure { s3 with root_ := some b } else pure s3) = .ok t' ∧
      t'.rootPresent := by
  have hgb : g ≠ b := fun e => hbg e.symm
  have e1 := setColor_eval hb Color.BLACK
  have hg1 : (t.heap.set b { mb with color := Color.BLACK })[g]? = some gn := by
    rw [get_set hb, if_neg hgb]; exact hg
  have e2 := setColor_eval (t := ⟨t.heap.set b { mb with color := Color.BLACK }, t.root_, t.cerr⟩)
    hg1 Color.RED
  -- the heap before the rotation
  have hlook : ∀ z : Nat, ((t.heap.set b { mb with color := Color.BLACK }).set g
      { gn with color := Color.RED })[z]? =
      if z = g then some { gn with color := Color.RED }
      else if z = b then some { mb with color := Color.BLACK } else t.heap[z]? := by
    intro z
    rw [get_set hg1, get_set hb]
  have hx2 := hlook g
  rw [if_pos rfl] at hx2
  have hy2 := hlook b
  rw [if_neg hbg, if_pos rfl] at hy2
  have hpar2 : ∀ p, ({ gn with color := Color.RED } : Node).parent = some p → p ≠ g ∧ p ≠ b ∧
      ∃ np, ((t.heap.set b { mb with color := Color.BLACK }).set g
        { gn with color := Color.RED })[p]? = some np ∧
        (np.left = some g ∨ np.right = some g) := by
    intro p hp
    obtain ⟨h1, h2, np, hnp, hh⟩ := hpar p hp
    refine ⟨h1, h2, np, ?_, hh⟩
    rw [hlook p, if_neg h1, if_neg h2]; exact hnp
  obtain ⟨t3, hrun, hroot3, _, hy3, hx3, hp3, hother3⟩ :=
    RightRotate_eval (t := ⟨(t.heap.set b { mb with color := Color.BLACK }).set g
      { gn with color := Color.RED }, t.root_, t.cerr⟩) hx2 hy2 hgb hleft hpar2
  -- every node of the old heap is still there
  have hdom : ∀ (r : Nat) (n : Node), t.heap[r]? = some n → ∃ n' : Node, t3.heap[r]? = some n' := by
    intro r n hn
    by_cases hrb : r = b
    · subst hrb; exact ⟨_, hy3⟩
    · by_cases hrg : r = g
      · subst hrg; exact ⟨_, hx3⟩
      · by_cases hrp : gn.parent = some r
        · obtain ⟨_, _, np, hnp, _⟩ := hpar2 r hrp
          exact ⟨_, hp3 r np hrp hnp⟩
        · refine ⟨n, ?_⟩
          rw [hother3 r hrg hrb hrp]
          show ((t.heap.set b { mb with color := Color.BLACK }).set g
            { gn with color := Color.RED })[r]? = some n
          rw [hlook r, if_neg hrg, if_neg hrb]; exact hn
  obtain ⟨r, n, hr, hn⟩ := hroot
  by_cases hcase : t3.root_ = some g
  · refine ⟨{ t3 with root_ := some b }, ?_, b, _, rfl, hy3⟩
    simp [e1, e2, hrun, hcase, bind, Except.bind, pure, Except.pure]
  · refine ⟨t3, ?_, ?_⟩
    · simp [e1, e2, hrun, hcase, bind, Except.bind, pure, Except.pure]
    · obtain ⟨n', hn'⟩ := hdom r n hn
      exact ⟨r, n', hroot3.trans hr, hn'⟩

/-- The recolouring and left rotation of the straight right shape return. -/
theorem straight_right_total {t : RBTree} {b g : Nat} {mb gn : Node}
    (hb : t.heap[b]? = some mb) (hg : t.heap[g]? = some gn) (hbg : b ≠ g)
    (hleft : gn.right = some b)
    (hpar : ∀ p, gn.parent = some p → p ≠ g ∧ p ≠ b ∧
      ∃ np, t.heap[p]? = some np ∧ (np.left = some g ∨ np.right = some g))
    (hroot : t.rootPresent) :
    ∃ t', (do
        let s1 ← t.setColor (some b) Color.BLACK
        let s2 ← s1.setColor (some g) Color.RED
        let s3 ← LeftRotate s2 (some g)
        if s3.root_ = some g then pure { s3 with root_ := some b } else pure s3) = .ok t' ∧
      t'.rootPresent := by
  have hgb : g ≠ b := fun e => hbg e.symm
  have e1 := setColor_eval hb Color.BLACK
  have hg1 : (t.heap.set b { mb with color := Color.BLACK })[g]? = some gn := by
    rw [get_set hb, if_neg hgb]; exact hg
  have e2 := setColor_eval (t := ⟨t.heap.set b { mb with color := Color.BLACK }, t.root_, t.cerr⟩)
    hg1 Color.RED
  -- the heap before the rotation
  have hlook : ∀ z : Nat, ((t.heap.set b { mb with color := Color.BLACK }).set g
      { gn with color := Color.RED })[z]? =
      if z = g then some { gn with color := Color.RED }
      else if z = b then some { mb with color := Color.BLACK } else t.heap[z]? := by
    intro z
    rw [get_set hg1, get_set hb]
  have hx2 := hlook g
  rw [if_pos rfl] at hx2
  have hy2 := hlook b
  rw [if_neg hbg, if_pos rfl] at hy2
  have hpar2 : ∀ p, ({ gn with color := Color.RED } : Node).parent = some p → p ≠ g ∧ p ≠ b ∧
      ∃ np, ((t.heap.set b { mb with color := Color.BLACK }).set g
        { gn with color := Color.RED })[p]? = some np ∧
        (np.left = some g ∨ np.right = some g) := by
    intro p hp
    obtain ⟨h1, h2, np, hnp, hh⟩ := hpar p hp
    refine ⟨h1, h2, np, ?_, hh⟩
    rw [hlook p, if_neg h1, if_neg h2]; exact hnp
  obtain ⟨t3, hrun, hroot3, _, hy3, hx3, hp3, hother3⟩ :=
    LeftRotate_eval (t := ⟨(t.heap.set b { mb with color := Color.BLACK }).set g
      { gn with color := Color.RED }, t.root_, t.cerr⟩) hx2 hy2 hgb hleft hpar2
  -- every node of the old heap is still there
  have hdom : ∀ (r : Nat) (n : Node), t.heap[r]? = some n → ∃ n' : Node, t3.heap[r]? = some n' := by
    intro r n hn
    by_cases hrb : r = b
    · subst hrb; exact ⟨_, hy3⟩
    · by_cases hrg : r = g
      · subst hrg; exact ⟨_, hx3⟩
      · by_cases hrp : gn.parent = some r
        · obtain ⟨_, _, np, hnp, _⟩ := hpar2 r hrp
          exact ⟨_, hp3 r np hrp hnp⟩
        · refine ⟨n, ?_⟩
          rw [hother3 r hrg hrb hrp]
          show ((t.heap.set b { mb with color := Color.BLACK }).set g
            { gn with color := Color.RED })[r]? = some n
          rw [hlook r, if_neg hrg, if_neg hrb]; exact hn
  obtain ⟨r, n, hr, hn⟩ := hroot
  by_cases hcase : t3.root_ = some g
  · refine ⟨{ t3 with root_ := some b }, ?_, b, _, rfl, hy3⟩
    simp [e1, e2, hrun, hcase, bind, Except.bind, pure, Except.pure]
  · refine ⟨t3, ?_, ?_⟩
    · simp [e1, e2, hrun, hcase, bind, Except.bind, pure, Except.pure]
    · obtain ⟨n', hn'⟩ := hdom r n hn
      exact ⟨r, n', hroot3.trans hr, hn'⟩

/-- A rotation keeps every node in place and its colour. -/
theorem keeps_of_eval {t t' : RBTree} {x y : Nat} {n m nx ny : Node}
    (hx' : t'.heap[x]? = some nx) (hy' : t'.heap[y]? = some ny)
    (hcx : nx.color = n.color) (hcy : ny.color = m.color)
    (hx : t.heap[x]? = some n) (hy : t.heap[y]? = some m)
    (hp' : ∀ (p : Nat) (np : Node), n.parent = some p → t.heap[p]? = some np →
      ∃ np' : Node, t'.heap[p]? = some np' ∧ np'.color = np.color)
    (ho : ∀ a : Nat, a ≠ x → a ≠ y → n.parent ≠ some a → t'.heap[a]? = t.heap[a]?) :
    ∀ (z : Nat) (nz : Node), t.heap[z]? = some nz →
      ∃ nz' : Node, t'.heap[z]? = some nz' ∧ nz'.color = nz.color := by
  intro z nz hz
  by_cases hzx : z = x
  · subst hzx
    rw [hx] at hz; cases hz
    exact ⟨nx, hx', hcx⟩
  · by_cases hzy : z = y
    · subst hzy
      rw [hy] at hz; cases hz
      exact ⟨ny, hy', hcy⟩
    · by_cases hzp : n.parent = some z
      · exact hp' z nz hzp hz
      · exact ⟨nz, by rw [ho z hzx hzy hzp]; exact hz, rfl⟩

/-- The colour test only reads the colour of the node named. -/
theorem hasColor_congr {t t' : RBTree}
    (hk : ∀ (z : Nat) (nz : Node), t.heap[z]? = some nz →
      ∃ nz' : Node, t'.heap[z]? = some nz' ∧ nz'.color = nz.color)
    {p : Ptr} {c : Color} {b : Bool} (h : t.hasColor p c = .ok b) :
    t'.hasColor p c = .ok b := by
  cases p with
  | none => exact h
  | some u =>
    cases hu : t.heap[u]? with
    | none => simp [RBTree.hasColor, RBTree.node, hu, Except.map] at h
    | some nu =>
      obtain ⟨nu', hu', hc⟩ := hk u nu hu
      simp only [RBTree.hasColor, RBTree.node, hu, Except.map] at h
      simp only [RBTree.hasColor, RBTree.node, hu', Except.map, hc]
      exact h

theorem rootPresent_of_keeps {t t' : RBTree}
    (hk : ∀ (z : Nat) (nz : Node), t.heap[z]? = some nz →
      ∃ nz' : Node, t'.heap[z]? = some nz' ∧ nz'.color = nz.color)
    (hr : t'.root_ = t.root_) (h : t.rootPresent) : t'.rootPresent := by
  obtain ⟨r, n, h1, h2⟩ := h
  obtain ⟨n', h3, _⟩ := hk r n h2
  exact ⟨r, n', hr.trans h1, h3⟩

/-- The bent left shape: the left rotation of the parent and the call on the parent
return. -/
theorem bent_left_total {F : Nat} {t : RBTree} {a b g : Nat} {na mb gn : Node}
    (ha : t.heap[a]? = some na) (hb : t.heap[b]? = some mb) (hg : t.heap[g]? = some gn)
    (hab : a ≠ b) (hag : a ≠ g) (hbg : b ≠ g)
    (hright : mb.right = some a) (hpg : mb.parent = some g) (hleft : gn.left = some b)
    (hunc : t.hasColor gn.right Color.RED = .ok false)
    (hpar : ∀ p, gn.parent = some p → p ≠ g ∧ p ≠ b ∧ p ≠ a ∧
      ∃ np, t.heap[p]? = some np ∧ (np.left = some g ∨ np.right = some g))
    (hroot : t.rootPresent) :
    ∃ t', (do
        let s1 ← LeftRotate t (some b)
        AdjustTree (F + 1) s1 (some b)) = .ok t' ∧ t'.rootPresent := by
  have hba : b ≠ a := fun e => hab e.symm
  have hgb : g ≠ b := fun e => hbg e.symm
  have hga : g ≠ a := fun e => hag e.symm
  have hparb : ∀ p, mb.parent = some p → p ≠ b ∧ p ≠ a ∧
      ∃ np, t.heap[p]? = some np ∧ (np.left = some b ∨ np.right = some b) := by
    intro p hp
    rw [hpg] at hp; cases hp
    exact ⟨hgb, hga, gn, hg, Or.inl hleft⟩
  obtain ⟨t3, hrun, hroot3, _, ha3, hb3, hp3, ho3⟩ := LeftRotate_eval hb ha hba hright hparb
  have hg3 := hp3 g gn hpg hg
  rw [if_pos hleft] at hg3
  have hkeep := keeps_of_eval (n := mb) (m := na) hb3 ha3 rfl rfl hb ha
    (fun p np hp hnp => ⟨_, hp3 p np hp hnp, by split <;> rfl⟩) ho3
  have hroot3' : t3.rootPresent := rootPresent_of_keeps hkeep hroot3 hroot
  cases hca : na.color with
  | BLACK =>
    refine ⟨t3, ?_, hroot3'⟩
    have := AdjustTree_black_parent (F := F) hb3 rfl ha3 hca
    simp [hrun, this, bind, Except.bind]
  | RED =>
    have hunc3 : t3.hasColor ({ gn with left := some a } : Node).right Color.RED = .ok false :=
      hasColor_congr hkeep hunc
    have hstep := AdjustTree_left_straight (F := F) hb3 rfl ha3 hca hpg hg3 rfl hunc3 rfl
    have hpar3 : ∀ p, ({ gn with left := some a } : Node).parent = some p → p ≠ g ∧ p ≠ a ∧
        ∃ np, t3.heap[p]? = some np ∧ (np.left = some g ∨ np.right = some g) := by
      intro p hp
      obtain ⟨h1, h2, h3, np, hnp, hh⟩ := hpar p hp
      refine ⟨h1, h3, np, ?_, hh⟩
      rw [ho3 p h2 h3 (by rw [hpg]; intro e; cases e; exact h1 rfl)]
      exact hnp
    obtain ⟨t', hrun', hroot'⟩ := straight_left_total ha3 hg3 hag rfl hpar3 hroot3'
    refine ⟨t', ?_, hroot'⟩
    simp only [hrun, bind, Except.bind]
    rw [hstep]
    exact hrun'

/-- The bent right shape: the right rotation of the parent and the call on the parent
return. -/
theorem bent_right_total {F : Nat} {t : RBTree} {a b g : Nat} {na mb gn : Node}
    (ha : t.heap[a]? = some na) (hb : t.heap[b]? = some mb) (hg : t.heap[g]? = some gn)
    (hab : a ≠ b) (hag : a ≠ g) (hbg : b ≠ g)
    (hbl : mb.left = some a) (hpg : mb.parent = some g)
    (hnl : ¬ some b = gn.left) (hright : gn.right = some b)
    (hunc : t.hasColor gn.left Color.RED = .ok false)
    (hpar : ∀ p, gn.parent = some p → p ≠ g ∧ p ≠ b ∧ p ≠ a ∧
      ∃ np, t.heap[p]? = some np ∧ (np.left = some g ∨ np.right = some g))
    (hroot : t.rootPresent) :
    ∃ t', (do
        let s1 ← RightRotate t (some b)
        AdjustTree (F + 1) s1 (some b)) = .ok t' ∧ t'.rootPresent := by
  have hba : b ≠ a := fun e => hab e.symm
  have hgb : g ≠ b := fun e => hbg e.symm
  have hga : g ≠ a := fun e => hag e.symm
  have hparb : ∀ p, mb.parent = some p → p ≠ b ∧ p ≠ a ∧
      ∃ np, t.heap[p]? = some np ∧ (np.left = some b ∨ np.right = some b) := by
    intro p hp
    rw [hpg] at hp; cases hp
    exact ⟨hgb, hga, gn, hg, Or.inr hright⟩
  obtain ⟨t3, hrun, hroot3, _, ha3, hb3, hp3, ho3⟩ := RightRotate_eval hb ha hba hbl hparb
  have hg3 := hp3 g gn hpg hg
  have hnl' : ¬ gn.left = some b := fun e => hnl e.symm
  rw [if_neg hnl'] at hg3
  have hkeep := keeps_of_eval (n := mb) (m := na) hb3 ha3 rfl rfl hb ha
    (fun p np hp hnp => ⟨_, hp3 p np hp hnp, by split <;> rfl⟩) ho3
  have hroot3' : t3.rootPresent := rootPresent_of_keeps hkeep hroot3 hroot
  cases hca : na.color with
  | BLACK =>
    refine ⟨t3, ?_, hroot3'⟩
    have := AdjustTree_black_parent (F := F) hb3 rfl ha3 hca
    simp [hrun, this, bind, Except.bind]
  | RED =>
    have hunc3 : t3.hasColor ({ gn with right := some a } : Node).left Color.RED = .ok false :=
      hasColor_congr hkeep hunc
    have hnl3 : ¬ some a = ({ gn with right := some a } : Node).left := by
      intro e
      -- the left child of the grandparent is not RED, the node is
      have e' : gn.left = some a := e.symm
      rw [e'] at hunc
      simp [RBTree.hasColor, RBTree.node, ha, hca, Except.map] at hunc
    have hstep := AdjustTree_right_straight (F := F) hb3 rfl ha3 hca hpg hg3 hnl3 hunc3 rfl
    have hpar3 : ∀ p, ({ gn with right := some a } : Node).parent = some p → p ≠ g ∧ p ≠ a ∧
        ∃ np, t3.heap[p]? = some np ∧ (np.left = some g ∨ np.right = some g) := by
      intro p hp
      obtain ⟨h1, h2, h3, np, hnp, hh⟩ := hpar p hp
      refine ⟨h1, h3, np, ?_, hh⟩
      rw [ho3 p h2 h3 (by rw [hpg]; intro e; cases e; exact h1 rfl)]
      exact hnp
    obtain ⟨t', hrun', hroot'⟩ := straight_right_total ha3 hg3 hag rfl hpar3 hroot3'
    refine ⟨t', ?_, hroot'⟩
    simp only [hrun, bind, Except.bind]
    rw [hstep]
    exact hrun'

/-- A colour assignment keeps the links of every node, and the colour of every other
node. -/
theorem setColor_links {t : RBTree} {a : Nat} {n : Node} (hc : closed t.heap = true)
    (hn : t.heap[a]? = some n) (c : Color) :
    ∃ t', t.setColor (some a) c = .ok t' ∧ t'.root_ = t.root_ ∧ closed t'.heap = true ∧
      ∀ (z : Nat) (nz : Node), t.heap[z]? = some nz →
        ∃ nz' : Node, t'.heap[z]? = some nz' ∧ nz'.parent = nz.parent ∧ nz'.left = nz.left ∧
          nz'.right = nz.right ∧ (nz'.color = nz.color ∨ (z = a ∧ nz'.color = c)) := by
  refine ⟨_, setColor_eval hn c, rfl, closed_setColor hc hn c, ?_⟩
  intro z nz hz
  show ∃ nz' : Node, (t.heap.set a { n with color := c })[z]? = some nz' ∧ _
  rw [get_set hn]
  by_cases hza : z = a
  · subst hza
    rw [hn] at hz; cases hz
    exact ⟨_, if_pos rfl, rfl, rfl, rfl, Or.inr ⟨rfl, rfl⟩⟩
  · rw [if_neg hza]
    exact ⟨nz, hz, rfl, rfl, rfl, Or.inl rfl⟩

/-- The link to the parent of the first node of a chain names the second node. -/
theorem chain_parent {h : List Node} {g : Nat} {rest : List Nat} {gn : Node}
    (hch : goodChain h (g :: rest)) (hg : h[g]? = some gn) :
    ∀ p, gn.parent = some p → p ∈ rest ∧
      ∃ np, h[p]? = some np ∧ (np.left = some g ∨ np.right = some g) := by
  intro p hp
  cases rest with
  | nil =>
    obtain ⟨n, hn, hnp⟩ := hch
    rw [hg] at hn; cases hn
    rw [hnp] at hp; cases hp
  | cons q rest' =>
    obtain ⟨⟨n, hn, hnp⟩, ⟨m, hm, hholds, _⟩, _⟩ := hch
    rw [hg] at hn; cases hn
    rw [hnp] at hp; cases hp
    exact ⟨by simp, m, hm, hholds⟩

/-- The recolouring of the red-uncle case returns and keeps all links. -/
theorem uncle_recolour {t : RBTree} {b u g : Nat} {mb nu gn : Node}
    (hc : closed t.heap = true) (hb : t.heap[b]? = some mb) (hu : t.heap[u]? = some nu)
    (hg : t.heap[g]? = some gn) :
    ∃ t2 t3 t4, t.setColor (some b) Color.BLACK = .ok t2 ∧
      t2.setColor (some u) Color.BLACK = .ok t3 ∧ t3.setColor (some g) Color.RED = .ok t4 ∧
      t4.root_ = t.root_ ∧ closed t4.heap = true ∧
      ∀ (z : Nat) (nz : Node), t.heap[z]? = some nz →
        ∃ nz' : Node, t4.heap[z]? = some nz' ∧ nz'.parent = nz.parent ∧ nz'.left = nz.left ∧
          nz'.right = nz.right ∧ (z ≠ g → nz.color = Color.BLACK → nz'.color = Color.BLACK) := by
  obtain ⟨t2, e2, r2, c2, k2⟩ := setColor_links hc hb Color.BLACK
  obtain ⟨nu2, hu2, _⟩ := k2 u nu hu
  obtain ⟨t3, e3, r3, c3, k3⟩ := setColor_links c2 hu2 Color.BLACK
  obtain ⟨gn2, hg2, _⟩ := k2 g gn hg
  obtain ⟨gn3, hg3, _⟩ := k3 g gn2 hg2
  obtain ⟨t4, e4, r4, c4, k4⟩ := setColor_links c3 hg3 Color.RED
  refine ⟨t2, t3, t4, e2, e3, e4, by rw [r4, r3, r2], c4, ?_⟩
  intro z nz hz
  obtain ⟨n2, h2, p2, l2, q2, col2⟩ := k2 z nz hz
  obtain ⟨n3, h3, p3, l3, q3, col3⟩ := k3 z n2 h2
  obtain ⟨n4, h4, p4, l4, q4, col4⟩ := k4 z n3 h3
  refine ⟨n4, h4, by rw [p4, p3, p2], by rw [l4, l3, l2], by rw [q4, q3, q2], ?_⟩
  intro hzg hblack
  have c2' : n2.color = Color.BLACK := by
    rcases col2 with e | ⟨_, e⟩
    · rw [e]; exact hblack
    · exact e
  have c3' : n3.color = Color.BLACK := by
    rcases col3 with e | ⟨_, e⟩
    · rw [e]; exact c2'
    · exact e
  rcases col4 with e | ⟨e, _⟩
  · rw [e]; exact c3'
  · exact absurd e hzg

/-- `AdjustTree` returns when the parent links above the node form a chain to a node
without parent: each red-uncle step moves two nodes up the chain, each other step ends the
recursion after at most one more call. -/
theorem AdjustTree_chain :
    ∀ (F : Nat) (t : RBTree) (c : List Nat) (a : Nat),
      closed t.heap = true → goodChain t.heap (a :: c) → (a :: c).Nodup →
      (a :: c).length ≤ F → t.rootPresent →
      ∃ t', AdjustTree F t (some a) = .ok t' ∧ t'.rootPresent := by
  intro F
  induction F with
  | zero =>
    intro t c a _ _ _ hlen _
    simp at hlen
  | succ F ih =>
    intro t c a hc hch hnd hlen hroot
    cases c with
    | nil =>
      obtain ⟨na, ha, hpa⟩ := hch
      exact ⟨t, AdjustTree_no_parent ha hpa, hroot⟩
    | cons b rest =>
      obtain ⟨⟨na, ha, hpa⟩, ⟨mb, hb, hholds, hblack⟩, hrest⟩ := hch
      cases hcol : mb.color with
      | BLACK => exact ⟨t, AdjustTree_black_parent ha hpa hb hcol, hroot⟩
      | RED =>
        cases rest with
        | nil =>
          rw [hblack rfl] at hcol; cases hcol
        | cons g rest' =>
          obtain ⟨⟨mb', hb', hpg⟩, ⟨gn, hg, hgholds, _⟩, hrest2⟩ := hrest
          rw [hb] at hb'; cases hb'
          have hnd' := hnd
          simp only [List.nodup_cons, List.mem_cons, not_or] at hnd'
          obtain ⟨⟨hab, hag, harest⟩, ⟨hbg, hbrest⟩, hgrest, hndrest⟩ := hnd'
          have hpar : ∀ p, gn.parent = some p → p ≠ g ∧ p ≠ b ∧ p ≠ a ∧
              ∃ np, t.heap[p]? = some np ∧ (np.left = some g ∨ np.right = some g) := by
            intro p hp
            obtain ⟨hmem, hex⟩ := chain_parent hrest2 hg p hp
            refine ⟨?_, ?_, ?_, hex⟩
            · intro e; rw [e] at hmem; exact hgrest hmem
            · intro e; rw [e] at hmem; exact hbrest hmem
            · intro e; rw [e] at hmem; exact harest hmem
          have hF : 2 ≤ F := by
            simp only [List.length_cons] at hlen
            omega
          obtain ⟨F', rfl⟩ : ∃ F', F = F' + 1 := ⟨F - 1, by omega⟩
          -- the step after the colours of parent, uncle and grandparent are set
          have huncle : ∀ (u : Nat) (nu : Node), t.heap[u]? = some nu →
              ∃ t', (do
                let t2 ← t.setColor (some b) Color.BLACK
                let t3 ← t2.setColor (some u) Color.BLACK
                let t4 ← t3.setColor (some g) Color.RED
                AdjustTree (F' + 1) t4 (some g)) = .ok t' ∧ t'.rootPresent := by
            intro u nu hu
            obtain ⟨t2, t3, t4, e2, e3, e4, hr4, hc4, hk4⟩ := uncle_recolour hc hb hu hg
            have hch4 : goodChain t4.heap (g :: rest') := by
              apply goodChain_congr (g :: rest') hrest2
              · intro z _ nz hz
                obtain ⟨nz', h1, h2, h3, h4, _⟩ := hk4 z nz hz
                exact ⟨nz', h1, h2, h3, h4⟩
              · intro z hz nz nz' hnz hnz' hblk
                have hz' : z ∈ rest' := by simpa using hz
                obtain ⟨nz2, h1, _, _, _, h5⟩ := hk4 z nz hnz
                rw [hnz'] at h1; cases h1
                exact h5 (fun e => hgrest (e ▸ hz')) hblk
            have hroot4 : t4.rootPresent := by
              obtain ⟨r, n, h1, h2⟩ := hroot
              obtain ⟨n', h3, _⟩ := hk4 r n h2
              exact ⟨r, n', hr4.trans h1, h3⟩
            have hlen4 : (g :: rest').length ≤ F' + 1 := by
              simp only [List.length_cons] at hlen ⊢
              omega
            obtain ⟨t', hrun, hroot'⟩ := ih t4 rest' g hc4 hch4
              (List.nodup_cons.mpr ⟨hgrest, hndrest⟩) hlen4 hroot4
            refine ⟨t', ?_, hroot'⟩
            simp only [e2, e3, e4, bind, Except.bind]
            exact hrun
          by_cases hl : some b = gn.left
          · rcases hasColor_total hc hg gn.right (Or.inr rfl) Color.RED with hno | ⟨u, nu, hpu, hu, _, hyes⟩
            · by_cases hstr : mb.left = some a
              · rw [AdjustTree_left_straight ha hpa hb hcol hpg hg hl.symm hno hstr]
                exact straight_left_total hb hg hbg hl.symm
                  (fun p hp => ⟨(hpar p hp).1, (hpar p hp).2.1, (hpar p hp).2.2.2⟩) hroot
              · have hright : mb.right = some a := by
                  rcases hholds with h | h
                  · exact absurd h hstr
                  · exact h
                rw [AdjustTree_left_bent ha hpa hb hcol hpg hg hl.symm hno
                  (fun e => hstr e.symm)]
                exact bent_left_total ha hb hg hab hag hbg hright hpg hl.symm hno hpar hroot
            · rw [AdjustTree_uncle ha hpa hb hcol hpg hg u (by rw [if_pos hl]; exact hpu) (by
                rw [← hpu]; exact hyes)]
              exact huncle u nu hu
          · have hgr : gn.right = some b := by
              rcases hgholds with h | h
              · exact absurd h.symm hl
              · exact h
            rcases hasColor_total hc hg gn.left (Or.inl rfl) Color.RED with hno | ⟨u, nu, hpu, hu, _, hyes⟩
            · by_cases hstr : mb.right = some a
              · rw [AdjustTree_right_straight ha hpa hb hcol hpg hg hl hno hstr]
                exact straight_right_total hb hg hbg hgr
                  (fun p hp => ⟨(hpar p hp).1, (hpar p hp).2.1, (hpar p hp).2.2.2⟩) hroot
              · have hbl : mb.left = some a := by
                  rcases hholds with h | h
                  · exact h
                  · exact absurd h hstr
                rw [AdjustTree_right_bent ha hpa hb hcol hpg hg hl hno (fun e => hstr e.symm)]
                exact bent_right_total ha hb hg hab hag hbg hbl hpg hl hgr hno hpar hroot
            · rw [AdjustTree_uncle ha hpa hb hcol hpg hg u (by rw [if_neg hl]; exact hpu) (by
                rw [← hpu]; exact hyes)]
              exact huncle u nu hu

/-- The search reaches an empty slot: the new node is stored there. -/
theorem InsertRecurse_empty {F : Nat} {t : RBTree} {s : Slot} {f : Nat}
    (hs : t.readSlot s = .ok none) :
    ∃ t', InsertRecurse (F + 1) t s (some f) = .ok t' ∧ t.writeSlot s (some f) = .ok t' := by
  cases s with
  | root =>
    refine ⟨{ t with root_ := some f }, ?_, rfl⟩
    simp only [RBTree.readSlot] at hs
    simp [InsertRecurse, RBTree.readSlot, RBTree.writeSlot, hs, bind, Except.bind]
  | left o =>
    cases ho : t.heap[o]? with
    | none => simp [RBTree.readSlot, RBTree.node, ho, Except.map] at hs
    | some no =>
      refine ⟨⟨t.heap.set o { no with left := some f }, t.root_, t.cerr⟩, ?_, ?_⟩
      · simp [InsertRecurse, hs, RBTree.writeSlot, RBTree.update, ho, bind, Except.bind]
      · simp [RBTree.writeSlot, RBTree.update, ho]
  | right o =>
    cases ho : t.heap[o]? with
    | none => simp [RBTree.readSlot, RBTree.node, ho, Except.map] at hs
    | some no =>
      refine ⟨⟨t.heap.set o { no with right := some f }, t.root_, t.cerr⟩, ?_, ?_⟩
      · simp [InsertRecurse, hs, RBTree.writeSlot, RBTree.update, ho, bind, Except.bind]
      · simp [RBTree.writeSlot, RBTree.update, ho]

/-- One level of the search at a node with another value. -/
theorem InsertRecurse_step {F : Nat} {t : RBTree} {s : Slot} {a f : Nat} {na nf : Node}
    (hs : t.readSlot s = .ok (some a)) (ha : t.heap[a]? = some na)
    (hf : t.heap[f]? = some nf) (hne : ¬ na.value = nf.value) :
    InsertRecurse (F + 1) t s (some f) =
      (do
        let t1 ← InsertRecurse F t
          (if na.value > nf.value then Slot.left a else Slot.right a) (some f)
        let i1 ← t1.node (some f)
        match i1.parent with
        | some _ => pure t1
        | none => do
          let src_now ← t1.readSlot s
          t1.update (some f) (fun m => { m with parent := src_now })) := by
  rw [InsertRecurse]
  simp only [hs, RBTree.node, ha, hf, hne, bind, Except.bind, if_false]
  split <;> rfl

/-- A slot keeps its content when another node is written. -/
theorem readSlot_set {t : RBTree} {s : Slot} {a : Nat} {k : Node} {r : List Diag}
    (hs : ∀ o, (s = Slot.left o ∨ s = Slot.right o) → o ≠ a) :
    RBTree.readSlot ⟨t.heap.set a k, t.root_, r⟩ s = t.readSlot s := by
  cases s with
  | root => rfl
  | left o =>
    have h : ¬ a = o := fun e => hs o (Or.inl rfl) e.symm
    simp [RBTree.readSlot, RBTree.node, List.getElem?_set, h]
  | right o =>
    have h : ¬ a = o := fun e => hs o (Or.inr rfl) e.symm
    simp [RBTree.readSlot, RBTree.node, List.getElem?_set, h]

/-- The end of a level of the search when the level below stored or rejected the node
and left its parent link empty: the link is set to the node of this level. -/
theorem InsertRecurse_link {t : RBTree} {s : Slot} {a f : Nat} {nf : Node} {h1 : List Node}
    {r : List Diag} (hs : RBTree.readSlot ⟨h1, t.root_, r⟩ s = .ok (some a))
    (hf : h1[f]? = some nf) (hpf : nf.parent = none) :
    (do
      let i1 ← RBTree.node ⟨h1, t.root_, r⟩ (some f)
      match i1.parent with
      | some _ => pure (⟨h1, t.root_, r⟩ : RBTree)
      | none => do
        let src_now ← RBTree.readSlot ⟨h1, t.root_, r⟩ s
        RBTree.update ⟨h1, t.root_, r⟩ (some f) (fun m => { m with parent := src_now })) =
      .ok ⟨h1.set f { nf with parent := some a }, t.root_, r⟩ := by
  simp [RBTree.node, hf, hpf, hs, RBTree.update, bind, Except.bind]

/-- The end of a level of the search when the parent link of the node is already set. -/
theorem InsertRecurse_linked {t1 : RBTree} {s : Slot} {f P : Nat} {nf : Node}
    (hf : t1.heap[f]? = some nf) (hpf : nf.parent = some P) :
    (do
      let i1 ← t1.node (some f)
      match i1.parent with
      | some _ => pure t1
      | none => do
        let src_now ← t1.readSlot s
        t1.update (some f) (fun m => { m with parent := src_now })) = .ok t1 := by
  simp [RBTree.node, hf, hpf, bind, Except.bind, pure, Except.pure]

/-- The search of `InsertRecurse` below a slot whose subtree is a tree returns.  Either the
slot was empty and now holds the new node, or its node has the value, or the new node hangs
below a node `P` of the subtree, or a node below `P` has the value and the new node only got
`P` as parent link. -/
theorem InsertRecurse_spec (f : Nat) (nf : Node) (hpf : nf.parent = none) :
    ∀ (fuel : Nat) (t : RBTree) (s : Slot) (p : Ptr) (w : List (Nat × Node)),
      t.readSlot s = .ok p → walk fuel t.heap p = some w → (w.map Prod.fst).Nodup →
      t.heap[f]? = some nf → f ∉ w.map Prod.fst →
      (∀ o, (s = Slot.left o ∨ s = Slot.right o) → o ∉ w.map Prod.fst ∧ o ≠ f) →
      ∃ t', InsertRecurse (fuel + 1) t s (some f) = .ok t' ∧
        ((p = none ∧ t.writeSlot s (some f) = .ok t') ∨
         (∃ a na, p = some a ∧ t.heap[a]? = some na ∧ na.value = nf.value ∧
            t' = t.report Diag.valueInserted) ∨
         (∃ P nP, P ∈ w.map Prod.fst ∧ t.heap[P]? = some nP ∧ t'.root_ = t.root_ ∧
            ((nP.left = none ∧ t'.heap =
                (t.heap.set P { nP with left := some f }).set f { nf with parent := some P }) ∨
             (nP.right = none ∧ t'.heap =
                (t.heap.set P { nP with right := some f }).set f { nf with parent := some P }))) ∨
         (∃ P nP, P ∈ w.map Prod.fst ∧ t.heap[P]? = some nP ∧ t'.root_ = t.root_ ∧
            t'.heap = t.heap.set f { nf with parent := some P })) := by
  intro fuel
  induction fuel with
  | zero =>
    intro t s p w hs hw _ _ _ _
    cases p with
    | none =>
      obtain ⟨t', h1, h2⟩ := InsertRecurse_empty (F := 0) (f := f) hs
      exact ⟨t', h1, Or.inl ⟨rfl, h2⟩⟩
    | some a => simp [walk] at hw
  | succ fuel ih =>
    intro t s p w hs hw hnd hf hfw hown
    cases p with
    | none =>
      obtain ⟨t', h1, h2⟩ := InsertRecurse_empty (F := fuel + 1) (f := f) hs
      exact ⟨t', h1, Or.inl ⟨rfl, h2⟩⟩
    | some a =>
      obtain ⟨na, l, r, ha, hl, hr, rfl⟩ := walk_succ_some hw
      simp only [List.map_append, List.map_cons, List.mem_append, List.mem_cons, not_or] at hfw
      obtain ⟨hfl, hfa, hfr⟩ := hfw
      have hnd' := hnd
      simp only [List.map_append, List.map_cons] at hnd'
      have hmid := List.nodup_middle.mp hnd'
      obtain ⟨hanot, hlr⟩ := List.nodup_cons.mp hmid
      simp only [List.mem_append, not_or] at hanot
      obtain ⟨hal, har⟩ := hanot
      obtain ⟨hndl, hndr, _⟩ := List.nodup_append.mp hlr
      by_cases heq : na.value = nf.value
      · refine ⟨t.report Diag.valueInserted, ?_, Or.inr (Or.inl ⟨a, na, rfl, ha, heq, rfl⟩)⟩
        rw [InsertRecurse]
        simp [hs, RBTree.node, ha, hf, heq, bind, Except.bind, pure, Except.pure]
      · rw [InsertRecurse_step hs ha hf heq]
        have hoa : ∀ o, (s = Slot.left o ∨ s = Slot.right o) → o ≠ a := by
          intro o ho e
          exact (hown o ho).1 (by rw [e]; simp)
        have haf : a ≠ f := fun e => hfa e.symm
        -- the level below, in either direction
        have hbelow : ∀ (s' : Slot) (q : Ptr) (w' : List (Nat × Node)),
            (s' = Slot.left a ∧ q = na.left ∨ s' = Slot.right a ∧ q = na.right) →
            walk fuel t.heap q = some w' → (w'.map Prod.fst).Nodup →
            f ∉ w'.map Prod.fst → a ∉ w'.map Prod.fst →
            (∀ z, z ∈ w'.map Prod.fst → z ∈ (l ++ (a, na) :: r).map Prod.fst) →
            ∃ t', (do
              let t1 ← InsertRecurse (fuel + 1) t s' (some f)
              let i1 ← t1.node (some f)
              match i1.parent with
              | some _ => pure t1
              | none => do
                let src_now ← t1.readSlot s
                t1.update (some f) (fun m => { m with parent := src_now })) = .ok t' ∧
              ((∃ P nP, P ∈ (l ++ (a, na) :: r).map Prod.fst ∧ t.heap[P]? = some nP ∧
                t'.root_ = t.root_ ∧
                ((nP.left = none ∧ t'.heap = (t.heap.set P { nP with left := some f }).set f
                    { nf with parent := some P }) ∨
                 (nP.right = none ∧ t'.heap = (t.heap.set P { nP with right := some f }).set f
                    { nf with parent := some P }))) ∨
               (∃ P nP, P ∈ (l ++ (a, na) :: r).map Prod.fst ∧ t.heap[P]? = some nP ∧
                t'.root_ = t.root_ ∧ t'.heap = t.heap.set f { nf with parent := some P })) := by
          intro s' q w' hs' hw' hndw hfw' haw' hsub
          have hread : t.readSlot s' = .ok q := by
            rcases hs' with ⟨e1, e2⟩ | ⟨e1, e2⟩ <;>
              simp [e1, e2, RBTree.readSlot, RBTree.node, ha, Except.map]
          have hown' : ∀ o, (s' = Slot.left o ∨ s' = Slot.right o) →
              o ∉ w'.map Prod.fst ∧ o ≠ f := by
            intro o ho
            have hoa' : o = a := by
              rcases hs' with ⟨e1, _⟩ | ⟨e1, _⟩ <;> rcases ho with e | e <;>
                rw [e1] at e <;> cases e <;> rfl
            rw [hoa']
            exact ⟨haw', haf⟩
          have hamem : a ∈ (l ++ (a, na) :: r).map Prod.fst := by simp
          obtain ⟨t1, hrun, hpost⟩ := ih t s' q w' hread hw' hndw hf hfw' hown'
          rcases hpost with ⟨hq, hwr⟩ | ⟨d, nd, hq, hd, hv, ht1⟩ |
              ⟨P, nP, hP, hnP, hroot, hheap⟩ | ⟨P, nP, hP, hnP, hroot, hheap⟩
          · -- the new node was stored in the field of this node
            rcases hs' with ⟨e1, e2⟩ | ⟨e1, e2⟩
            · subst e1
              have ht1 : t1 = ⟨t.heap.set a { na with left := some f }, t.root_, t.cerr⟩ := by
                simp [RBTree.writeSlot, RBTree.update, ha] at hwr
                exact hwr.symm
              subst ht1
              have hf1 : (t.heap.set a { na with left := some f })[f]? = some nf := by
                rw [get_set ha, if_neg (fun e => haf e.symm)]; exact hf
              have hs1 : RBTree.readSlot ⟨t.heap.set a { na with left := some f }, t.root_,
                  t.cerr⟩ s = .ok (some a) := by
                rw [readSlot_set hoa]; exact hs
              refine ⟨⟨(t.heap.set a { na with left := some f }).set f { nf with parent := some a },
                t.root_, t.cerr⟩, ?_, Or.inl ⟨a, na, hamem, ha, rfl, Or.inl ⟨?_, rfl⟩⟩⟩
              · rw [hrun]
                exact InsertRecurse_link hs1 hf1 hpf
              · rw [← e2]; exact hq
            · subst e1
              have ht1 : t1 = ⟨t.heap.set a { na with right := some f }, t.root_, t.cerr⟩ := by
                simp [RBTree.writeSlot, RBTree.update, ha] at hwr
                exact hwr.symm
              subst ht1
              have hf1 : (t.heap.set a { na with right := some f })[f]? = some nf := by
                rw [get_set ha, if_neg (fun e => haf e.symm)]; exact hf
              have hs1 : RBTree.readSlot ⟨t.heap.set a { na with right := some f }, t.root_,
                  t.cerr⟩ s = .ok (some a) := by
                rw [readSlot_set hoa]; exact hs
              refine ⟨⟨(t.heap.set a { na with right := some f }).set f { nf with parent := some a },
                t.root_, t.cerr⟩, ?_, Or.inl ⟨a, na, hamem, ha, rfl, Or.inr ⟨?_, rfl⟩⟩⟩
              · rw [hrun]
                exact InsertRecurse_link hs1 hf1 hpf
              · rw [← e2]; exact hq
          · -- the node below has the value
            subst ht1
            have hs1 : RBTree.readSlot ⟨t.heap, t.root_, t.cerr ++ [Diag.valueInserted]⟩ s =
                .ok (some a) := hs
            refine ⟨⟨t.heap.set f { nf with parent := some a }, t.root_,
              t.cerr ++ [Diag.valueInserted]⟩, ?_, Or.inr ⟨a, na, hamem, ha, rfl, rfl⟩⟩
            rw [hrun]
            exact InsertRecurse_link (t := t) hs1 hf hpf
          · -- the new node hangs further below
            have hP' : P ≠ f := fun e => hfw' (e ▸ hP)
            have hf1 : t1.heap[f]? = some { nf with parent := some P } := by
              rcases hheap with ⟨_, e⟩ | ⟨_, e⟩ <;> rw [e] <;>
                simp [List.getElem?_set, (List.getElem?_eq_some.mp hf).1]
            refine ⟨t1, ?_, Or.inl ⟨P, nP, hsub P hP, hnP, hroot, hheap⟩⟩
            rw [hrun]
            exact InsertRecurse_linked hf1 rfl
          · have hf1 : t1.heap[f]? = some { nf with parent := some P } := by
              rw [hheap]
              simp [List.getElem?_set, (List.getElem?_eq_some.mp hf).1]
            refine ⟨t1, ?_, Or.inr ⟨P, nP, hsub P hP, hnP, hroot, hheap⟩⟩
            rw [hrun]
            exact InsertRecurse_linked hf1 rfl
        by_cases hgt : na.value > nf.value
        · rw [if_pos hgt]
          obtain ⟨t', hrun, hpost⟩ := hbelow (Slot.left a) na.left l (Or.inl ⟨rfl, rfl⟩) hl hndl
            hfl hal (by intro z hz; simp only [List.map_append, List.mem_append]; exact Or.inl hz)
          exact ⟨t', hrun, Or.inr (Or.inr hpost)⟩
        · rw [if_neg hgt]
          obtain ⟨t', hrun, hpost⟩ := hbelow (Slot.right a) na.right r (Or.inr ⟨rfl, rfl⟩) hr hndr
            hfr har (by
              intro z hz
              simp only [List.map_append, List.map_cons, List.mem_append, List.mem_cons]
              exact Or.inr (Or.inr hz))
          exact ⟨t', hrun, Or.inr (Or.inr hpost)⟩

/-- Every node of a chain is in the heap. -/
theorem goodChain_valid {h : List Node} :
    ∀ (c : List Nat), goodChain h c → ∀ z ∈ c, ∃ n, h[z]? = some n := by
  intro c
  induction c with
  | nil => intro hc; exact hc.elim
  | cons a rest ih =>
    intro hc z hz
    cases rest with
    | nil =>
      obtain ⟨n, hn, _⟩ := hc
      simp only [List.mem_singleton] at hz
      subst hz
      exact ⟨n, hn⟩
    | cons b rest' =>
      obtain ⟨⟨n, hn, _⟩, _, hrest⟩ := hc
      rcases List.mem_cons.mp hz with e | e
      · subst e; exact ⟨n, hn⟩
      · exact ih hrest z e

/-- What `parentsOK` says at a node. -/
theorem parentsOK_node {fuel : Nat} {h : List Node} {par : Ptr} {a : Nat}
    (hp : parentsOK (fuel + 1) h par (some a) = true) :
    ∃ n, h[a]? = some n ∧ n.parent = par ∧ parentsOK fuel h (some a) n.left = true ∧
      parentsOK fuel h (some a) n.right = true := by
  simp only [parentsOK] at hp
  split at hp
  · simp at hp
  · rename_i n hn
    simp only [Bool.and_eq_true, decide_eq_true_eq] at hp
    exact ⟨n, hn, hp.1.1, hp.1.2, hp.2⟩

/-- In a tree with consistent parent links, the parent links from any node form a chain up
to the root. -/
theorem chain_below (h : List Node) :
    ∀ (fuel : Nat) (a : Nat) (anc : List Nat) (w : List (Nat × Node)) (par : Ptr),
      walk fuel h (some a) = some w → (w.map Prod.fst).Nodup →
      parentsOK fuel h par (some a) = true →
      goodChain h (a :: anc) → (a :: anc).Nodup → (∀ z ∈ anc, z ∉ w.map Prod.fst) →
      (anc = [] → ∃ n, h[a]? = some n ∧ n.color = Color.BLACK) →
      ∀ P ∈ w.map Prod.fst, ∃ c, goodChain h (P :: c) ∧ (P :: c).Nodup ∧
        (P :: c).length ≤ fuel + anc.length ∧
        (c = [] → ∃ n, h[P]? = some n ∧ n.color = Color.BLACK) ∧
        ∀ (n : Node) (ch : Nat), h[P]? = some n → (n.left = some ch ∨ n.right = some ch) →
          ch ∉ P :: c := by
  intro fuel
  induction fuel with
  | zero =>
    intro a anc w par hw
    simp [walk] at hw
  | succ fuel ih =>
    intro a anc w par hw hnd hpar hch hndc hanc hblack P hP
    obtain ⟨na, l, r, ha, hl, hr, rfl⟩ := walk_succ_some hw
    obtain ⟨na', ha', _, hpl, hpr⟩ := parentsOK_node hpar
    rw [ha] at ha'; cases ha'
    have hnd' := hnd
    simp only [List.map_append, List.map_cons] at hnd'
    have hmid := List.nodup_middle.mp hnd'
    obtain ⟨hanot, hlr⟩ := List.nodup_cons.mp hmid
    simp only [List.mem_append, not_or] at hanot
    obtain ⟨hal, har⟩ := hanot
    obtain ⟨hndl, hndr, _⟩ := List.nodup_append.mp hlr
    -- the step into a child
    have hchild : ∀ (q : Ptr) (w' : List (Nat × Node)),
        (na.left = q ∨ na.right = q) → walk fuel h q = some w' → (w'.map Prod.fst).Nodup →
        parentsOK fuel h (some a) q = true → a ∉ w'.map Prod.fst →
        (∀ z, z ∈ w'.map Prod.fst → z ∈ (l ++ (a, na) :: r).map Prod.fst) →
        P ∈ w'.map Prod.fst →
        ∃ c, goodChain h (P :: c) ∧ (P :: c).Nodup ∧
          (P :: c).length ≤ fuel + 1 + anc.length ∧
          (c = [] → ∃ n, h[P]? = some n ∧ n.color = Color.BLACK) ∧
          ∀ (n : Node) (ch : Nat), h[P]? = some n → (n.left = some ch ∨ n.right = some ch) →
            ch ∉ P :: c := by
      intro q w' hq hw' hndw hpq haw hsub hPw
      cases q with
      | none =>
        rw [walk_none] at hw'; cases hw'
        simp at hPw
      | some ch =>
        have hchw : ch ∈ w'.map Prod.fst := walk_start h fuel ch w' hw'
        cases fuel with
        | zero => simp [walk] at hw'
        | succ fuel' =>
          obtain ⟨nch, hch', hchp, _, _⟩ := parentsOK_node hpq
          have hgood : goodChain h (ch :: a :: anc) :=
            ⟨⟨nch, hch', hchp⟩, ⟨na, ha, by
              rcases hq with e | e
              · exact Or.inl e
              · exact Or.inr e, fun e => by
              obtain ⟨n, hn, hc⟩ := hblack e
              rw [ha] at hn; cases hn
              exact hc⟩, hch⟩
          have hndch : (ch :: a :: anc).Nodup := by
            refine List.nodup_cons.mpr ⟨?_, hndc⟩
            intro hmem
            rcases List.mem_cons.mp hmem with e | e
            · exact haw (e ▸ hchw)
            · exact hanc ch e (hsub ch hchw)
          have hanc' : ∀ z ∈ a :: anc, z ∉ w'.map Prod.fst := by
            intro z hz
            rcases List.mem_cons.mp hz with e | e
            · rw [e]; exact haw
            · exact fun hm => hanc z e (hsub z hm)
          obtain ⟨c, h1, h2, h3, h4, h5⟩ := ih ch (a :: anc) w' (some a) hw' hndw hpq hgood hndch
            hanc' (by simp) P hPw
          refine ⟨c, h1, h2, ?_, h4, h5⟩
          simp only [List.length_cons] at h3 ⊢
          omega
    simp only [List.map_append, List.map_cons, List.mem_append, List.mem_cons] at hP
    rcases hP with hP | hP | hP
    · exact hchild na.left l (Or.inl rfl) hl hndl hpl hal
        (by intro z hz; simp only [List.map_append, List.mem_append]; exact Or.inl hz) hP
    · subst hP
      refine ⟨anc, hch, hndc, ?_, hblack, ?_⟩
      · simp only [List.length_cons]
        omega
      · intro n ch hn hchild'
        rw [ha] at hn; cases hn
        have hin : ch ∈ l.map Prod.fst ∨ ch ∈ r.map Prod.fst := by
          rcases hchild' with e | e
          · left
            rw [e] at hl
            exact walk_start h fuel ch l hl
          · right
            rw [e] at hr
            exact walk_start h fuel ch r hr
        intro hmem
        rcases List.mem_cons.mp hmem with e | e
        · rcases hin with hi | hi
          · exact hal (e ▸ hi)
          · exact har (e ▸ hi)
        · apply hanc ch e
          simp only [List.map_append, List.map_cons, List.mem_append, List.mem_cons]
          rcases hin with hi | hi
          · exact Or.inl hi
          · exact Or.inr (Or.inr hi)
    · exact hchild na.right r (Or.inr rfl) hr hndr hpr har
        (by
          intro z hz
          simp only [List.map_append, List.map_cons, List.mem_append, List.mem_cons]
          exact Or.inr (Or.inr hz)) hP

/-- Every address of a walk is in the heap. -/
theorem walk_valid (h : List Node) :
    ∀ (fuel : Nat) (p : Ptr) (w : List (Nat × Node)), walk fuel h p = some w →
      ∀ a ∈ w.map Prod.fst, a < h.length := by
  intro fuel
  induction fuel with
  | zero =>
    intro p w hw a ha
    cases p with
    | none => rw [walk_none] at hw; cases hw; simp at ha
    | some b => simp [walk] at hw
  | succ fuel ih =>
    intro p w hw a ha
    cases p with
    | none => rw [walk_none] at hw; cases hw; simp at ha
    | some b =>
      obtain ⟨n, l, r, hb, hl, hr, rfl⟩ := walk_succ_some hw
      simp only [List.map_append, List.map_cons, List.mem_append, List.mem_cons] at ha
      rcases ha with ha | ha | ha
      · exact ih n.left l hl a ha
      · rw [ha]; exact (List.getElem?_eq_some.mp hb).1
      · exact ih n.right r hr a ha

/-- A chain whose first node keeps its parent link and whose other nodes are unchanged. -/
theorem goodChain_head {h h' : List Node} {a : Nat} {c : List Nat} {n n' : Node}
    (hch : goodChain h (a :: c)) (hn : h[a]? = some n) (hn' : h'[a]? = some n')
    (hp : n'.parent = n.parent) (hsame : ∀ z ∈ c, h'[z]? = h[z]?) :
    goodChain h' (a :: c) := by
  cases c with
  | nil =>
    obtain ⟨m, hm, hmp⟩ := hch
    rw [hn] at hm; cases hm
    exact ⟨n', hn', hp.trans hmp⟩
  | cons b rest =>
    obtain ⟨⟨m, hm, hmp⟩, ⟨k, hk, hholds, hblack⟩, hrest⟩ := hch
    rw [hn] at hm; cases hm
    refine ⟨⟨n', hn', hp.trans hmp⟩, ⟨k, by rw [hsame b (by simp)]; exact hk, hholds, hblack⟩, ?_⟩
    apply goodChain_congr (b :: rest) hrest
    · intro z hz nz hnz
      exact ⟨nz, by rw [hsame z hz]; exact hnz, rfl, rfl, rfl⟩
    · intro z hz nz nz' hnz hnz' hb
      have hz' : z ∈ b :: rest := List.mem_of_mem_tail hz
      rw [hsame z hz', hnz] at hnz'
      cases hnz'
      exact hb

/-- A new node without links keeps the heap closed. -/
theorem closed_alloc {h : List Node} (hc : closed h = true) (value : Int) (c : Color) :
    closed (h ++ [⟨value, c, none, none, none⟩]) = true := by
  rw [closed_iff] at hc ⊢
  intro a n hn
  have hmono : ∀ p : Ptr, validPtr h p = true →
      validPtr (h ++ [⟨value, c, none, none, none⟩]) p = true := by
    intro p hp
    cases p with
    | none => rfl
    | some b =>
      have := validPtr_some.mp hp
      apply validPtr_some.mpr
      simp only [List.length_append, List.length_singleton]
      omega
  by_cases hlt : a < h.length
  · rw [List.getElem?_append_left hlt] at hn
    obtain ⟨h1, h2, h3⟩ := hc a n hn
    exact ⟨hmono _ h1, hmono _ h2, hmono _ h3⟩
  · have hlen := (List.getElem?_eq_some.mp hn).1
    simp only [List.length_append, List.length_singleton] at hlen
    have ha : a = h.length := by omega
    subst ha
    simp at hn
    subst hn
    exact ⟨rfl, rfl, rfl⟩

/-- A left rotation of a node without right child only writes the diagnostic. -/
theorem LeftRotate_no_right {t : RBTree} {x : Nat} {n : Node} (hx : t.heap[x]? = some n)
    (hr : n.right = none) :
    LeftRotate t (some x) = .ok (t.report Diag.illegalLeftRotate) := by
  simp [LeftRotate, RBTree.node, hx, hr, bind, Except.bind, pure, Except.pure]

/-- A right rotation of a node without left child only writes the diagnostic. -/
theorem RightRotate_no_left {t : RBTree} {x : Nat} {n : Node} (hx : t.heap[x]? = some n)
    (hl : n.left = none) :
    RightRotate t (some x) = .ok (t.report Diag.illegalRightRotate) := by
  simp [RightRotate, RBTree.node, hx, hl, bind, Except.bind, pure, Except.pure]

/-- The red-uncle step returns when the grandparent starts a chain. -/
theorem uncle_total {F : Nat} {t : RBTree} {b u g : Nat} {rest : List Nat} {mb nu gn : Node}
    (hc : closed t.heap = true) (hb : t.heap[b]? = some mb) (hu : t.heap[u]? = some nu)
    (hg : t.heap[g]? = some gn) (hch : goodChain t.heap (g :: rest))
    (hnd : (g :: rest).Nodup) (hlen : (g :: rest).length ≤ F) (hroot : t.rootPresent) :
    ∃ t', (do
      let t2 ← t.setColor (some b) Color.BLACK
      let t3 ← t2.setColor (some u) Color.BLACK
      let t4 ← t3.setColor (some g) Color.RED
      AdjustTree F t4 (some g)) = .ok t' ∧ t'.rootPresent := by
  obtain ⟨hgrest, _⟩ := List.nodup_cons.mp hnd
  obtain ⟨t2, t3, t4, e2, e3, e4, hr4, hc4, hk4⟩ := uncle_recolour hc hb hu hg
  have hch4 : goodChain t4.heap (g :: rest) := by
    apply goodChain_congr (g :: rest) hch
    · intro z _ nz hz
      obtain ⟨nz', h1, h2, h3, h4, _⟩ := hk4 z nz hz
      exact ⟨nz', h1, h2, h3, h4⟩
    · intro z hz nz nz' hnz hnz' hblk
      have hz' : z ∈ rest := by simpa using hz
      obtain ⟨nz2, h1, _, _, _, h5⟩ := hk4 z nz hnz
      rw [hnz'] at h1; cases h1
      exact h5 (fun e => hgrest (e ▸ hz')) hblk
  have hroot4 : t4.rootPresent := by
    obtain ⟨r, n, h1, h2⟩ := hroot
    obtain ⟨n', h3, _⟩ := hk4 r n h2
    exact ⟨r, n', hr4.trans h1, h3⟩
  obtain ⟨t', hrun, hroot'⟩ := AdjustTree_chain F t4 rest g hc4 hch4 hnd hlen hroot4
  refine ⟨t', ?_, hroot'⟩
  simp only [e2, e3, e4, bind, Except.bind]
  exact hrun

/-- `AdjustTree` on a rejected node: its parent link names a node `P` of the tree, but no
child field holds it. -/
theorem AdjustTree_orphan {F : Nat} {t : RBTree} {f P : Nat} {c : List Nat} {nf nP : Node}
    (hc : closed t.heap = true) (hf : t.heap[f]? = some nf) (hpf : nf.parent = some P)
    (hP : t.heap[P]? = some nP) (hnl : ¬ some f = nP.left) (hnr : ¬ some f = nP.right)
    (hch : goodChain t.heap (P :: c)) (hnd : (P :: c).Nodup) (hlen : (P :: c).length ≤ F)
    (hblack : c = [] → nP.color = Color.BLACK)
    (hkids : ∀ ch, (nP.left = some ch ∨ nP.right = some ch) → ch ∉ P :: c)
    (hroot : t.rootPresent) :
    ∃ t', AdjustTree (F + 1) t (some f) = .ok t' ∧ t'.rootPresent := by
  cases hcol : nP.color with
  | BLACK => exact ⟨t, AdjustTree_black_parent hf hpf hP hcol, hroot⟩
  | RED =>
    cases c with
    | nil => rw [hblack rfl] at hcol; cases hcol
    | cons g rest =>
      have hch' := hch
      obtain ⟨⟨nP', hP', hpg⟩, ⟨gn, hg, hgholds, _⟩, hrest2⟩ := hch'
      rw [hP] at hP'; cases hP'
      have hnd' := hnd
      simp only [List.nodup_cons, List.mem_cons, not_or] at hnd'
      obtain ⟨⟨hPg, hPrest⟩, hgrest, hndrest⟩ := hnd'
      have hF : 2 ≤ F := by
        simp only [List.length_cons] at hlen
        omega
      obtain ⟨F', rfl⟩ : ∃ F', F = F' + 1 := ⟨F - 1, by omega⟩
      have hlen2 : (g :: rest).length ≤ F' + 1 := by
        simp only [List.length_cons] at hlen ⊢
        omega
      have hpar : ∀ y, (nP.left = some y ∨ nP.right = some y) →
          ∀ p, gn.parent = some p → p ≠ g ∧ p ≠ P ∧ p ≠ y ∧
          ∃ np, t.heap[p]? = some np ∧ (np.left = some g ∨ np.right = some g) := by
        intro y hy p hp
        obtain ⟨hmem, hex⟩ := chain_parent hrest2 hg p hp
        refine ⟨?_, ?_, ?_, hex⟩
        · intro e; rw [e] at hmem; exact hgrest hmem
        · intro e; rw [e] at hmem; exact hPrest hmem
        · intro e; rw [e] at hmem
          exact hkids y hy (by simp [hmem])
      have hvalid := (closed_iff.mp hc) P nP hP
      by_cases hl : some P = gn.left
      · rcases hasColor_total hc hg gn.right (Or.inr rfl) Color.RED with
          hno | ⟨u, nu, hpu, hu, _, hyes⟩
        · rw [AdjustTree_left_bent hf hpf hP hcol hpg hg hl.symm hno hnl]
          cases hright : nP.right with
          | none =>
            rw [LeftRotate_no_right hP hright]
            exact AdjustTree_chain (F' + 1) (t.report Diag.illegalLeftRotate) (g :: rest) P hc hch
              hnd hlen hroot
          | some y =>
            have hyv : validPtr t.heap (some y) = true := hright ▸ hvalid.2.2
            have hylt := validPtr_some.mp hyv
            have hy : t.heap[y]? = some t.heap[y] := by simp [hylt]
            have hyc := hkids y (Or.inr hright)
            simp only [List.mem_cons, not_or] at hyc
            exact bent_left_total hy hP hg hyc.1 hyc.2.1 hPg hright hpg hl.symm hno
              (hpar y (Or.inr hright)) hroot
        · rw [AdjustTree_uncle hf hpf hP hcol hpg hg u (by rw [if_pos hl]; exact hpu) (by
            rw [← hpu]; exact hyes)]
          exact uncle_total hc hP hu hg hrest2 (List.nodup_cons.mpr ⟨hgrest, hndrest⟩) hlen2 hroot
      · have hgr : gn.right = some P := by
          rcases hgholds with h | h
          · exact absurd h.symm hl
          · exact h
        rcases hasColor_total hc hg gn.left (Or.inl rfl) Color.RED with
          hno | ⟨u, nu, hpu, hu, _, hyes⟩
        · rw [AdjustTree_right_bent hf hpf hP hcol hpg hg hl hno hnr]
          cases hleft : nP.left with
          | none =>
            rw [RightRotate_no_left hP hleft]
            exact AdjustTree_chain (F' + 1) (t.report Diag.illegalRightRotate) (g :: rest) P hc hch
              hnd hlen hroot
          | some y =>
            have hyv : validPtr t.heap (some y) = true := hleft ▸ hvalid.2.1
            have hylt := validPtr_some.mp hyv
            have hy : t.heap[y]? = some t.heap[y] := by simp [hylt]
            have hyc := hkids y (Or.inl hleft)
            simp only [List.mem_cons, not_or] at hyc
            exact bent_right_total hy hP hg hyc.1 hyc.2.1 hPg hleft hpg hl hgr hno
              (hpar y (Or.inl hleft)) hroot
        · rw [AdjustTree_uncle hf hpf hP hcol hpg hg u (by rw [if_neg hl]; exact hpu) (by
            rw [← hpu]; exact hyes)]
          exact uncle_total hc hP hu hg hrest2 (List.nodup_cons.mpr ⟨hgrest, hndrest⟩) hlen2 hroot

/-- `AdjustTree` on a node that was just hung below the node `P` of a chain returns. -/
theorem AdjustTree_attached {F : Nat} {h0 : List Node} {root : Ptr} {cerr : List Diag}
    {f P : Nat} {c : List Nat} {nf nP nP' : Node}
    (hc0 : closed h0 = true) (hf : h0[f]? = some nf) (hP : h0[P]? = some nP)
    (hpp : nP'.parent = nP.parent) (hcol : nP'.color = nP.color)
    (hholds : nP'.left = some f ∨ nP'.right = some f)
    (hv : validPtr h0 nP'.left = true ∧ validPtr h0 nP'.right = true)
    (hch : goodChain h0 (P :: c)) (hnd : (P :: c).Nodup) (hfc : f ∉ P :: c)
    (hlen : (P :: c).length ≤ F) (hblack : c = [] → nP.color = Color.BLACK)
    (hroot : ∃ r n, root = some r ∧ h0[r]? = some n) :
    ∃ t', AdjustTree (F + 1)
        ⟨(h0.set P nP').set f { nf with parent := some P }, root, cerr⟩ (some f) = .ok t' ∧
      t'.rootPresent := by
  have hPf : P ≠ f := fun e => hfc (by simp [e])
  have hf1 : (h0.set P nP')[f]? = some nf := by
    rw [get_set hP, if_neg (fun e => hPf e.symm)]; exact hf
  have hlook : ∀ z : Nat, ((h0.set P nP').set f { nf with parent := some P })[z]? =
      if z = f then some { nf with parent := some P }
      else if z = P then some nP' else h0[z]? := by
    intro z
    rw [get_set hf1, get_set hP]
  have hvP := (closed_iff.mp hc0) P nP hP
  have hvf := (closed_iff.mp hc0) f nf hf
  have hc1 : closed ((h0.set P nP').set f { nf with parent := some P }) = true := by
    apply closed_set
    · apply closed_set hc0
      exact ⟨hpp ▸ hvP.1, hv.1, hv.2⟩
    · refine ⟨validPtr_set ?_, validPtr_set hvf.2.1, validPtr_set hvf.2.2⟩
      exact validPtr_some.mpr (List.getElem?_eq_some.mp hP).1
  have hch1 : goodChain ((h0.set P nP').set f { nf with parent := some P }) (f :: P :: c) := by
    refine ⟨⟨_, by rw [hlook, if_pos rfl], rfl⟩, ⟨nP', by rw [hlook, if_neg hPf, if_pos rfl],
      hholds, fun e => by rw [hcol]; exact hblack e⟩, ?_⟩
    apply goodChain_head hch hP (by rw [hlook, if_neg hPf, if_pos rfl]) hpp
    intro z hz
    have hzf : z ≠ f := fun e => hfc (by simp [← e, hz])
    have hzP : z ≠ P := fun e => (List.nodup_cons.mp hnd).1 (e ▸ hz)
    rw [hlook, if_neg hzf, if_neg hzP]
  have hroot1 : RBTree.rootPresent
      ⟨(h0.set P nP').set f { nf with parent := some P }, root, cerr⟩ := by
    obtain ⟨r, n, h1, h2⟩ := hroot
    refine ⟨r, if r = f then { nf with parent := some P } else if r = P then nP' else n, h1, ?_⟩
    show ((h0.set P nP').set f { nf with parent := some P })[r]? = _
    rw [hlook]
    split
    · rfl
    · split
      · rfl
      · exact h2
  exact AdjustTree_chain (F + 1) _ (P :: c) f hc1 hch1 (List.nodup_cons.mpr ⟨hfc, hnd⟩)
    (by simp only [List.length_cons] at hlen ⊢; omega) hroot1

/-- `Insert` returns on every tree whose child links form a tree with consistent parent
links and a BLACK root, whether the value is new or already stored. -/
theorem Insert_returns (fuel : Nat) (t : RBTree) (value : Int) (w : List (Nat × Node))
    (hc : closed t.heap = true) (hw : walk fuel t.heap t.root_ = some w)
    (hnd : (w.map Prod.fst).Nodup) (hpar : parentsOK fuel t.heap none t.root_ = true)
    (hblack : t.rootBlack = true) :
    ∃ t', Insert (fuel + 1) t value = .ok t' := by
  cases hr : t.root_ with
  | none =>
    have hf0 : (t.heap ++ [(⟨value, Color.RED, none, none, none⟩ : Node)])[t.heap.length]? =
        some ⟨value, Color.RED, none, none, none⟩ := by simp
    have hset := setColor_eval (t := ⟨t.heap ++ [⟨value, Color.RED, none, none, none⟩],
      some t.heap.length, t.cerr⟩) hf0 Color.BLACK
    refine ⟨⟨(t.heap ++ [(⟨value, Color.RED, none, none, none⟩ : Node)]).set t.heap.length
      ⟨value, Color.BLACK, none, none, none⟩, some t.heap.length, t.cerr⟩, ?_⟩
    simp only [Insert, hr, RBTree.alloc]
    exact hset
  | some r =>
    rw [hr] at hw hpar
    cases fuel with
    | zero => simp [walk] at hw
    | succ k =>
      -- the new node and the heap that holds it
      have hf0 : (t.heap ++ [(⟨value, Color.RED, none, none, none⟩ : Node)])[t.heap.length]? =
          some ⟨value, Color.RED, none, none, none⟩ := by simp
      have hold : ∀ z : Nat, z < t.heap.length →
          (t.heap ++ [(⟨value, Color.RED, none, none, none⟩ : Node)])[z]? = t.heap[z]? :=
        fun z hz => List.getElem?_append_left hz
      have hwv := walk_valid t.heap (k + 1) (some r) w hw
      have hw0 : walk (k + 1) (t.heap ++ [(⟨value, Color.RED, none, none, none⟩ : Node)])
          (some r) = some w :=
        walk_frame t.heap _ (k + 1) (some r) w hw (fun a ha => hold a (hwv a ha))
      have hfw : t.heap.length ∉ w.map Prod.fst := fun hm => Nat.lt_irrefl _ (hwv _ hm)
      have hc0 := closed_alloc hc value Color.RED
      -- the root
      obtain ⟨nr, hnr, hnrp, _, _⟩ := parentsOK_node hpar
      have hrblack : nr.color = Color.BLACK := by
        simp only [RBTree.rootBlack, hr, isRedPtr, hnr, Bool.not_eq_true', decide_eq_false_iff_not]
          at hblack
        cases hcol : nr.color with
        | RED => exact absurd hcol hblack
        | BLACK => rfl
      have hrlt : r < t.heap.length := (List.getElem?_eq_some.mp hnr).1
      -- the search
      obtain ⟨t1, hrun1, hpost⟩ := InsertRecurse_spec t.heap.length
        ⟨value, Color.RED, none, none, none⟩ rfl (k + 1)
        ⟨t.heap ++ [⟨value, Color.RED, none, none, none⟩], some r, t.cerr⟩ Slot.root (some r) w
        rfl hw0 hnd hf0 hfw (by intro o ho; rcases ho with e | e <;> cases e)
      -- the chain above a node of the tree, read in the heap with the new node
      have hchain : ∀ P ∈ w.map Prod.fst, ∃ c,
          goodChain (t.heap ++ [(⟨value, Color.RED, none, none, none⟩ : Node)]) (P :: c) ∧
          (P :: c).Nodup ∧ (P :: c).length ≤ k + 1 ∧ t.heap.length ∉ P :: c ∧
          (c = [] → ∃ n, t.heap[P]? = some n ∧ n.color = Color.BLACK) ∧
          ∀ (n : Node) (ch : Nat), t.heap[P]? = some n →
            (n.left = some ch ∨ n.right = some ch) → ch ∉ P :: c := by
        intro P hP
        obtain ⟨c, h1, h2, h3, h4, h5⟩ := chain_below t.heap (k + 1) r [] w none hw hnd hpar
          ⟨nr, hnr, hnrp⟩ (by simp) (by simp) (fun _ => ⟨nr, hnr, hrblack⟩) P hP
        have hval := goodChain_valid (P :: c) h1
        have hlt : ∀ z ∈ P :: c, z < t.heap.length := by
          intro z hz
          obtain ⟨n, hn⟩ := hval z hz
          exact (List.getElem?_eq_some.mp hn).1
        refine ⟨c, ?_, h2, by simpa using h3, fun hm => Nat.lt_irrefl _ (hlt _ hm), h4, h5⟩
        apply goodChain_congr (P :: c) h1
        · intro z hz nz hnz
          exact ⟨nz, by rw [hold z (hlt z hz)]; exact hnz, rfl, rfl, rfl⟩
        · intro z hz nz nz' hnz hnz' hb
          rw [hold z (hlt z (List.mem_of_mem_tail hz)), hnz] at hnz'
          cases hnz'
          exact hb
      -- the fixup
      have hfix : ∃ t2, AdjustTree (k + 2) t1 (some t.heap.length) = .ok t2 ∧ t2.rootPresent := by
        rcases hpost with ⟨hq, _⟩ | ⟨d, nd, hq, hd, hv, ht1⟩ |
            ⟨P, nP, hP, hnP, hroot, hheap⟩ | ⟨P, nP, hP, hnP, hroot, hheap⟩
        · cases hq
        · subst ht1
          refine ⟨_, AdjustTree_no_parent (t := RBTree.report _ _) hf0 rfl, r, nr, rfl, ?_⟩
          show (t.heap ++ [(⟨value, Color.RED, none, none, none⟩ : Node)])[r]? = some nr
          rw [hold r hrlt]; exact hnr
        · obtain ⟨c, h1, h2, h3, h4, h5, _⟩ := hchain P hP
          have hPlt := hwv P hP
          have hnP' : t.heap[P]? = some nP := by rw [← hold P hPlt]; exact hnP
          have hvP := (closed_iff.mp hc0) P nP hnP
          have hvf : validPtr (t.heap ++ [(⟨value, Color.RED, none, none, none⟩ : Node)])
              (some t.heap.length) = true := by
            apply validPtr_some.mpr
            simp
          have hb : c = [] → nP.color = Color.BLACK := by
            intro e
            obtain ⟨n, hn, hcol⟩ := h5 e
            rw [hnP'] at hn; cases hn
            exact hcol
          have hroot0 : ∃ r' n, (some r : Ptr) = some r' ∧
              (t.heap ++ [(⟨value, Color.RED, none, none, none⟩ : Node)])[r']? = some n :=
            ⟨r, nr, rfl, by rw [hold r hrlt]; exact hnr⟩
          obtain ⟨heap1, root1, cerr1⟩ := t1
          simp only at hroot hheap
          subst hroot
          rcases hheap with ⟨_, hheap⟩ | ⟨_, hheap⟩
          · subst hheap
            exact AdjustTree_attached hc0 hf0 hnP rfl rfl (Or.inl rfl) ⟨hvf, hvP.2.2⟩ h1 h2 h4
              h3 hb hroot0
          · subst hheap
            exact AdjustTree_attached hc0 hf0 hnP rfl rfl (Or.inr rfl) ⟨hvP.2.1, hvf⟩ h1 h2 h4
              h3 hb hroot0
        · obtain ⟨c, h1, h2, h3, h4, h5, h6⟩ := hchain P hP
          have hPlt := hwv P hP
          have hnP' : t.heap[P]? = some nP := by rw [← hold P hPlt]; exact hnP
          have hPf : P ≠ t.heap.length := fun e => h4 (by simp [e])
          have hlook : ∀ z : Nat,
              ((t.heap ++ [(⟨value, Color.RED, none, none, none⟩ : Node)]).set t.heap.length
                ⟨value, Color.RED, some P, none, none⟩)[z]? =
              if z = t.heap.length then some ⟨value, Color.RED, some P, none, none⟩
              else (t.heap ++ [(⟨value, Color.RED, none, none, none⟩ : Node)])[z]? := by
            intro z
            rw [get_set hf0]
          have hvalidP : validPtr (t.heap ++ [(⟨value, Color.RED, none, none, none⟩ : Node)])
              (some P) = true := by
            apply validPtr_some.mpr
            simp only [List.length_append, List.length_singleton]
            omega
          have hc1 : closed ((t.heap ++ [(⟨value, Color.RED, none, none, none⟩ : Node)]).set
              t.heap.length ⟨value, Color.RED, some P, none, none⟩) = true :=
            closed_set hc0 ⟨hvalidP, rfl, rfl⟩
          have hvP := (closed_iff.mp hc) P nP hnP'
          have hkidlt : ∀ q : Ptr, validPtr t.heap q = true → ¬ some t.heap.length = q := by
            intro q hq e
            rw [← e] at hq
            exact Nat.lt_irrefl _ (validPtr_some.mp hq)
          have hb : c = [] → nP.color = Color.BLACK := by
            intro e
            obtain ⟨n, hn, hcol⟩ := h5 e
            rw [hnP'] at hn; cases hn
            exact hcol
          obtain ⟨heap1, root1, cerr1⟩ := t1
          simp only at hroot hheap
          subst hroot
          subst hheap
          have hch1 : goodChain ((t.heap ++ [(⟨value, Color.RED, none, none, none⟩ : Node)]).set
              t.heap.length ⟨value, Color.RED, some P, none, none⟩) (P :: c) := by
            apply goodChain_congr (P :: c) h1
            · intro z hz nz hnz
              have hzf : z ≠ t.heap.length := fun e => h4 (e ▸ hz)
              exact ⟨nz, by rw [hlook, if_neg hzf]; exact hnz, rfl, rfl, rfl⟩
            · intro z hz nz nz' hnz hnz' hbl
              have hzf : z ≠ t.heap.length := fun e => h4 (e ▸ List.mem_of_mem_tail hz)
              rw [hlook, if_neg hzf, hnz] at hnz'
              cases hnz'
              exact hbl
          refine AdjustTree_orphan (P := P) (c := c) hc1 (by rw [hlook, if_pos rfl]) rfl
            (by rw [hlook, if_neg hPf]; exact hnP) (hkidlt _ hvP.2.1) (hkidlt _ hvP.2.2) hch1 h2
            h3 hb (fun ch hch => h6 nP ch hnP' hch) ⟨r, nr, rfl, ?_⟩
          show ((t.heap ++ [(⟨value, Color.RED, none, none, none⟩ : Node)]).set
              t.heap.length ⟨value, Color.RED, some P, none, none⟩)[r]? = some nr
          rw [hlook, if_neg (Nat.ne_of_lt hrlt), hold r hrlt]
          exact hnr
      obtain ⟨t2, hrun2, r2, n2, hr2, hn2⟩ := hfix
      have hset := setColor_eval hn2 Color.BLACK
      refine ⟨⟨t2.heap.set r2 { n2 with color := Color.BLACK }, t2.root_, t2.cerr⟩, ?_⟩
      simp only [Insert, hr, RBTree.alloc]
      rw [hrun1]
      simp only [bind, Except.bind]
      rw [hrun2]
      show t2.setColor t2.root_ Color.BLACK = _
      rw [hr2, hset, hr2]

/-- On a heap of two RED childless nodes that are each other's parent, `AdjustTree` never
returns: each call takes the bent branch, the rotation is refused for want of a child, and
the call recurses on the parent.  (Such a heap is not known to be reachable by the public
calls.) -/
theorem AdjustTree_loops_on_red_cycle (root : Ptr) :
    ∀ (fuel : Nat) (cerr : List Diag),
      AdjustTree fuel ⟨[⟨1, Color.RED, some 1, none, none⟩, ⟨2, Color.RED, some 0, none, none⟩],
        root, cerr⟩ (some 0) = .error Fault.outOfFuel ∧
      AdjustTree fuel ⟨[⟨1, Color.RED, some 1, none, none⟩, ⟨2, Color.RED, some 0, none, none⟩],
        root, cerr⟩ (some 1) = .error Fault.outOfFuel := by
  intro fuel
  induction fuel with
  | zero => intro cerr; exact ⟨rfl, rfl⟩
  | succ fuel ih =>
    intro cerr
    constructor
    · have h := (ih (cerr ++ [Diag.illegalRightRotate])).2
      simp [AdjustTree, RBTree.node, RBTree.hasColor, RightRotate, RBTree.report, bind,
        Except.bind, pure, Except.pure, h]
    · have h := (ih (cerr ++ [Diag.illegalRightRotate])).1
      simp [AdjustTree, RBTree.node, RBTree.hasColor, RightRotate, RBTree.report, bind,
        Except.bind, pure, Except.pure, h]

/-- A call of `Insert` that returns leaves `root_` on a BLACK node, whatever the state
before the call. -/
theorem Insert_ok_root_black {fuel : Nat} {t t' : RBTree} {value : Int}
    (h : Insert fuel t value = .ok t') :
    ∃ r n, t'.root_ = some r ∧ t'.heap[r]? = some n ∧ n.color = Color.BLACK := by
  unfold Insert at h
  cases hroot : t.root_ with
  | none =>
    simp only [hroot, RBTree.alloc] at h
    obtain ⟨a, n, hp, _, hr, hn⟩ := setColor_ok h
    exact ⟨a, _, hr.trans hp, hn, rfl⟩
  | some r0 =>
    simp only [hroot, RBTree.alloc, bind, Except.bind] at h
    split at h
    · simp at h
    · split at h
      · simp at h
      · rename_i t2 _
        obtain ⟨a, n, hp, _, hr, hn⟩ := setColor_ok h
        exact ⟨a, _, hr.trans hp, hn, rfl⟩

/-- What holds of `Insert`: a call that returns, from any state and for any value, leaves
`root_` not empty and on a BLACK node; and the call does return, with `fuel + 1` levels of
recursion, on every state whose child links form a tree of at most `fuel` levels with
distinct nodes, consistent parent links, a BLACK root and no dangling pointer, whether
the value is new or already stored.  On other states the call need not return, see
`insert_dereferences_empty_pointer`. -/
theorem insert_root_black (t : RBTree) (value : Int) :
    (∀ (fuel : Nat) (t' : RBTree), Insert fuel t value = .ok t' →
      ∃ r n, t'.root_ = some r ∧ t'.heap[r]? = some n ∧ n.color = Color.BLACK) ∧
    (∀ (fuel : Nat) (w : List (Nat × Node)), closed t.heap = true →
      walk fuel t.heap t.root_ = some w → (w.map Prod.fst).Nodup →
      parentsOK fuel t.heap none t.root_ = true → t.rootBlack = true →
      ∃ t', Insert (fuel + 1) t value = .ok t' ∧
        ∃ r n, t'.root_ = some r ∧ t'.heap[r]? = some n ∧ n.color = Color.BLACK) := by
  refine ⟨fun fuel t' h => Insert_ok_root_black h, ?_⟩
  intro fuel w hc hw hnd hpar hblack
  obtain ⟨t', h⟩ := Insert_returns fuel t value w hc hw hnd hpar hblack
  exact ⟨t', h, Insert_ok_root_black h⟩

/-- The driver's tree is a tree of four levels with consistent parent links and a BLACK
root, so the calls `Insert(9)` (a new value) and `Insert(7)` (a stored value) on it return
with a BLACK root; the first part read at `Insert(8)` with 16 levels of recursion. -/
theorem insert_root_black_witness :
    (closed mainTree.heap = true ∧
      (∃ w, walk 4 mainTree.heap mainTree.root_ = some w ∧ (w.map Prod.fst).Nodup) ∧
      parentsOK 4 mainTree.heap none mainTree.root_ = true ∧ mainTree.rootBlack = true) ∧
    (∃ t', Insert 5 mainTree 9 = .ok t' ∧
      ∃ r n, t'.root_ = some r ∧ t'.heap[r]? = some n ∧ n.color = Color.BLACK) ∧
    (∃ t', Insert 5 mainTree 7 = .ok t' ∧
      ∃ r n, t'.root_ = some r ∧ t'.heap[r]? = some n ∧ n.color = Color.BLACK) ∧
    (∃ t', Insert 16 mainTree 8 = .ok t' ∧
      ∃ r n, t'.root_ = some r ∧ t'.heap[r]? = some n ∧ n.color = Color.BLACK) :=
  ⟨⟨by decide, ⟨_, rfl, by decide⟩, by decide, by decide⟩,
    (insert_root_black mainTree 9).2 4 _ (by decide) rfl (by decide) (by decide) (by decide),
    (insert_root_black mainTree 7).2 4 _ (by decide) rfl (by decide) (by decide) (by decide),
    ⟨_, rfl, (insert_root_black mainTree 8).1 16 _ rfl⟩⟩

/-- C11: after every call of `Insert` the tree should be non-empty with a BLACK root, on
any starting tree.  On trees that earlier calls have left with stale parent links the call
does not get that far.  First run: after Insert 2, 5, 11, 7, 10, 8, Delete 10, 8, 2,
Insert 11, 8 the tree is the BLACK root 5 with the RED right child 7 (address 5); the
parent link of that child names the node holding 8 (address 7), which is outside the tree,
has the child as left child and a RED right child, and whose own parent link names a RED
node without parent (address 4).  `Insert(9)` hangs the new node below 7, finds the RED
uncle below node 8, recolours, recurses on node 8 and reads `grandparent->left` (source
line 177) through the empty parent link of the RED node: with any fuel of at least 3 the
call ends in that dereference.  Second run: the same happens with Insert calls on
pairwise distinct values only, at the 22nd value. -/
theorem insert_dereferences_empty_pointer :
    (∃ s, runCalls 16 RBTree.empty [.insert 2, .insert 5, .insert 11, .insert 7, .insert 10,
        .insert 8, .delete 10, .delete 8, .delete 2, .insert 11, .insert 8] = .ok s ∧
      s.nodes 16 = some [(1, 5, Color.BLACK, none, some 5), (5, 7, Color.RED, none, none)] ∧
      s.heap[5]? = some ⟨7, Color.RED, some 7, none, none⟩ ∧
      s.heap[7]? = some ⟨8, Color.BLACK, some 4, some 5, some 6⟩ ∧
      s.heap[6]? = some ⟨11, Color.RED, some 7, none, none⟩ ∧
      s.heap[4]? = some ⟨11, Color.RED, none, some 1, none⟩ ∧
      (∀ fuel, Insert (fuel + 3) s 9 = .error Fault.nullDeref)) ∧
    (∃ s, insertAll 16 RBTree.empty [1, 21, 22, 11, 4, 13, 5, 7, 14, 18, 6, 8, 17, 10, 9, 20,
        19, 16, 3, 2, 15] = .ok s ∧
      (∀ fuel, Insert (fuel + 8) s 12 = .error Fault.nullDeref)) :=
  ⟨⟨_, rfl, rfl, rfl, rfl, rfl, rfl, fun _ => rfl⟩, ⟨_, rfl, fun _ => rfl⟩⟩

end RBT
